import Mathlib

/-!
Verification development for the move-notation position synthesizer
(`Source/generateMoves.py`).  The Python program is shallowly embedded:
mutable boards become pure functions from squares to values that are
updated functionally, the in-place placement routines return `Option`
results, and the bounded `while` loops of the source (which walk at most
once across the 8x8 board) are given explicit fuel `8`.
-/

/-- File/rank offset (class `Offset` of the source). -/
structure Offset where
  file : Int
  rank : Int
deriving DecidableEq, Repr

/-- A square of the chessboard (class `Square` of the source).  The source's
transient `directionId` field does not take part in square equality and is
irrelevant to the routines embedded here, so it is omitted. -/
structure Square where
  file : Int
  rank : Int
deriving DecidableEq, Repr

/-- `Square.onBoard` of the source: `0 <= file <= 7 and 0 <= rank <= 7`. -/
def Square.onBoard (s : Square) : Bool :=
  decide (0 ≤ s.file) && decide (s.file ≤ 7) && decide (0 ≤ s.rank) && decide (s.rank ≤ 7)

/-- `Square.isAdjacent` of the source:
`abs(file difference) <= dist and abs(rank difference) <= dist`. -/
def Square.isAdjacent (s other : Square) (dist : Int) : Bool :=
  decide (|s.file - other.file| ≤ dist) && decide (|s.rank - other.rank| ≤ dist)

/-- `Square.__add__` of the source. -/
def Square.add (s : Square) (o : Offset) : Square :=
  ⟨s.file + o.file, s.rank + o.rank⟩

/-- `Square.__sub__` of the source. -/
def Square.sub (s : Square) (o : Offset) : Square :=
  ⟨s.file - o.file, s.rank - o.rank⟩

/-- The `Board` container of the source: a total value assignment to squares.
Reads are function application, writes are `Board.set`. -/
abbrev Board (α : Type) : Type := Square → α

/-- `Board.__init__`: every square holds the initial value. -/
def Board.init {α : Type} (v : α) : Board α := fun _ => v

/-- `Board.__setitem__`, functionally. -/
def Board.set {α : Type} (b : Board α) (s : Square) (v : α) : Board α :=
  fun t => if t = s then v else b t

/-- `sign` of the source. -/
def sign (x : Int) : Int :=
  if 0 < x then 1 else if x < 0 then -1 else 0

/-- File indices 0..7 (`range(8)` of the source). -/
def intRange8 : List Int := [0, 1, 2, 3, 4, 5, 6, 7]

/-- File/rank indices 7..0 (the flipped iteration order of the source). -/
def intRange8Rev : List Int := [7, 6, 5, 4, 3, 2, 1, 0]

/-- The constant `SQUARES`: all squares, file-major as in the source. -/
def SQUARES : List Square :=
  intRange8.flatMap (fun file => intRange8.map (fun rank => ⟨file, rank⟩))

/-- `PAWN_JUMPS` of the source. -/
def PAWN_JUMPS : List Offset := [⟨1, 1⟩, ⟨-1, 1⟩]

/-- `KING_JUMPS` of the source (product order with `(0, 0)` removed). -/
def KING_JUMPS : List Offset :=
  [⟨1, 1⟩, ⟨1, 0⟩, ⟨1, -1⟩, ⟨0, 1⟩, ⟨0, -1⟩, ⟨-1, 1⟩, ⟨-1, 0⟩, ⟨-1, -1⟩]

/-- `KNIGHT_JUMPS` of the source (permutation/sign order of the source). -/
def KNIGHT_JUMPS : List Offset :=
  [⟨1, 2⟩, ⟨1, -2⟩, ⟨-1, 2⟩, ⟨-1, -2⟩, ⟨2, 1⟩, ⟨2, -1⟩, ⟨-2, 1⟩, ⟨-2, -1⟩]

/-- `ROOK_DIRECTIONS` of the source. -/
def ROOK_DIRECTIONS : List Offset := [⟨1, 0⟩, ⟨-1, 0⟩, ⟨0, 1⟩, ⟨0, -1⟩]

/-- `BISHOP_DIRECTIONS` of the source. -/
def BISHOP_DIRECTIONS : List Offset := [⟨1, 1⟩, ⟨1, -1⟩, ⟨-1, 1⟩, ⟨-1, -1⟩]

/-- `QUEEN_DIRECTIONS` of the source. -/
def QUEEN_DIRECTIONS : List Offset := ROOK_DIRECTIONS ++ BISHOP_DIRECTIONS

/-- `markAttackedSquaresJump` of the source: mark every on-board landing
square; adjacent landings record the start square, the others the sentinel
`Square(-1, -1)`. -/
def markAttackedSquaresJump (startSquare : Square) (attackedSquares : Board (Option Square))
    (jumps : List Offset) : Board (Option Square) :=
  jumps.foldl (fun acc jump =>
    let endSquare := startSquare.add jump
    if endSquare.onBoard then
      if endSquare.isAdjacent startSquare 1 then acc.set endSquare (some startSquare)
      else acc.set endSquare (some ⟨-1, -1⟩)
    else acc) attackedSquares

/-- The `while` walk of `markAttackedSquaresDirection`: go in one direction
until the edge of the board or a blocking piece, marking each traversed square
with the previous square of the ray.  A walk visits at most 8 squares, hence
fuel 8. -/
def markDirectionWalk (fuel : Nat) (chessboard : Board String)
    (attackedSquares : Board (Option Square)) (squarePrevious squareCurrent : Square)
    (direction : Offset) : Board (Option Square) :=
  match fuel with
  | 0 => attackedSquares
  | fuel + 1 =>
    if squareCurrent.onBoard then
      let attackedSquares := attackedSquares.set squareCurrent (some squarePrevious)
      if chessboard squareCurrent ≠ "" then attackedSquares
      else markDirectionWalk fuel chessboard attackedSquares squareCurrent
        (squareCurrent.add direction) direction
    else attackedSquares

/-- `markAttackedSquaresDirection` of the source. -/
def markAttackedSquaresDirection (square : Square) (chessboard : Board String)
    (attackedSquares : Board (Option Square)) (directions : List Offset) :
    Board (Option Square) :=
  directions.foldl (fun acc direction =>
    markDirectionWalk 8 chessboard acc square (square.add direction) direction) attackedSquares

/-- `getAttackedSquares` of the source. -/
def getAttackedSquares (chessboard : Board String) : Board (Option Square) :=
  SQUARES.foldl (fun attackedSquares square =>
    let piece := chessboard square
    if piece = "P" then markAttackedSquaresJump square attackedSquares PAWN_JUMPS
    else if piece = "K" then markAttackedSquaresJump square attackedSquares KING_JUMPS
    else if piece = "N" then markAttackedSquaresJump square attackedSquares KNIGHT_JUMPS
    else if piece = "B" then markAttackedSquaresDirection square chessboard attackedSquares BISHOP_DIRECTIONS
    else if piece = "R" then markAttackedSquaresDirection square chessboard attackedSquares ROOK_DIRECTIONS
    else if piece = "Q" then markAttackedSquaresDirection square chessboard attackedSquares QUEEN_DIRECTIONS
    else attackedSquares) (Board.init none)

/-- `isCheckmate` of the source: every adjacent on-board square is attacked. -/
def isCheckmate (squareKing : Square) (attackedSquares : Board (Option Square)) : Bool :=
  KING_JUMPS.all (fun jump =>
    let adjacentSquare := squareKing.add jump
    !adjacentSquare.onBoard || (attackedSquares adjacentSquare).isSome)

/-- `placeWhiteKing` of the source: first suitable square of the scan order
receives the white king; `none` when no square qualifies. -/
def placeWhiteKing (chessboard : Board String) (keepFree : Board Bool)
    (attackedSquaresAfter : Board (Option Square)) (squareBlackKing : Square) :
    Option (Board String) :=
  (SQUARES.find? (fun square =>
    !keepFree square && !(attackedSquaresAfter square).isSome &&
      !square.isAdjacent squareBlackKing 2)).map
    (fun square => chessboard.set square "K")

/-- Python's `str.isupper` restricted to the piece strings stored on boards. -/
def strIsUpper (s : String) : Bool :=
  !decide (s = "") && s.data.all Char.isUpper

/-- Placing the planned rooks of `boxInBlackKing`. -/
def placeRooks (rookSquares : List Square) (b : Board String) : Board String :=
  rookSquares.foldl (fun acc r => acc.set r "R") b

/-- `boxInBlackKing` of the source.  All `return False` paths of the source
happen before any board write, so the embedding returns `none` there and
otherwise the updated pre-move board. -/
def boxInBlackKing (blackKingSquare endSquare : Square)
    (chessboardBefore chessboardAfter : Board String)
    (attackedSquaresAfter : Board (Option Square)) : Option (Board String) :=
  let keepFreeForAttack := attackedSquaresAfter blackKingSquare
  let rookSquares :=
    (BISHOP_DIRECTIONS.map (fun o => blackKingSquare.add o)).filter (fun sq => sq.onBoard)
  if (blackKingSquare.file = 0 ∨ blackKingSquare.file = 7) ∧
      (blackKingSquare.rank = 0 ∨ blackKingSquare.rank = 7) then
    none
  else if (blackKingSquare.file = 0 ∨ blackKingSquare.file = 7) ∨
      (blackKingSquare.rank = 0 ∨ blackKingSquare.rank = 7) then
    match keepFreeForAttack with
    | some kfa =>
      if kfa ∈ rookSquares then
        if strIsUpper (chessboardAfter kfa) && !(attackedSquaresAfter kfa).isSome then none
        else
          let rookSquares := rookSquares.erase kfa
          let knightSquare : Square := ⟨blackKingSquare.file, kfa.rank⟩
          let bishopSquare : Square := ⟨kfa.file, blackKingSquare.rank⟩
          let pair :=
            if (bishopSquare.file = 0 ∨ bishopSquare.file = 7) ∨
                (bishopSquare.rank = 0 ∨ bishopSquare.rank = 7) then
              (bishopSquare, knightSquare)
            else (knightSquare, bishopSquare)
          let b := (chessboardBefore.set pair.1 "N").set pair.2 "B"
          some ((placeRooks rookSquares b).set blackKingSquare "k")
      else
        if chessboardAfter endSquare = "R" && endSquare.isAdjacent blackKingSquare 1 then none
        else some ((placeRooks rookSquares chessboardBefore).set blackKingSquare "k")
    | none =>
      if chessboardAfter endSquare = "R" && endSquare.isAdjacent blackKingSquare 1 then none
      else some ((placeRooks rookSquares chessboardBefore).set blackKingSquare "k")
  else
    if chessboardAfter endSquare = "R" && endSquare.isAdjacent blackKingSquare 1 then none
    else
      let rookSquares :=
        match keepFreeForAttack with
        | some kfa => if kfa ∈ rookSquares then rookSquares.erase kfa else rookSquares.dropLast
        | none => rookSquares.dropLast
      some ((placeRooks rookSquares chessboardBefore).set blackKingSquare "k")

/-- `placeKingsNoCheck` of the source. -/
def placeKingsNoCheck (endSquare : Square) (chessboardBefore chessboardAfter : Board String)
    (keepFree : Board Bool) (hasWhiteKing : Bool) : Option (Board String) :=
  let attackedSquaresBefore := getAttackedSquares chessboardBefore
  let attackedSquaresAfter := getAttackedSquares chessboardAfter
  match SQUARES.find? (fun square =>
    !keepFree square &&
      !((attackedSquaresBefore square).isSome || (attackedSquaresAfter square).isSome) &&
      !(hasWhiteKing && square.isAdjacent endSquare 1)) with
  | none => none
  | some square =>
    let board := chessboardBefore.set square "k"
    if hasWhiteKing then some board
    else placeWhiteKing board keepFree attackedSquaresAfter square

/-- `placeKingsCheck` of the source. -/
def placeKingsCheck (endSquare : Square) (chessboardBefore chessboardAfter : Board String)
    (keepFree : Board Bool) (hasWhiteKing : Bool) : Option (Board String) :=
  let attackedSquaresBefore := getAttackedSquares chessboardBefore
  let attackedSquaresAfter := getAttackedSquares chessboardAfter
  match SQUARES.find? (fun square =>
    !keepFree square &&
      !(attackedSquaresBefore square).isSome &&
      (attackedSquaresAfter square).isSome &&
      !(hasWhiteKing && square.isAdjacent endSquare 1) &&
      !isCheckmate square attackedSquaresAfter) with
  | none => none
  | some square =>
    let board := chessboardBefore.set square "k"
    if hasWhiteKing then some board
    else placeWhiteKing board keepFree attackedSquaresAfter square

/-- The placability test of `placeKingsCheckmate`: every adjacent on-board
square, except the one that must stay free for the attack, is not reserved. -/
def adjacentAllPlacable (keepFree : Board Bool) (attackedSquaresAfter : Board (Option Square))
    (square : Square) : Bool :=
  KING_JUMPS.all (fun jump =>
    let adjacentSquare := square.add jump
    !adjacentSquare.onBoard || decide (some adjacentSquare = attackedSquaresAfter square) ||
      !keepFree adjacentSquare)

/-- The square scan of `placeKingsCheckmate`, returning the updated pre-move
board together with the black king's square. -/
def placeKingsCheckmateLoop (endSquare : Square)
    (chessboardBefore chessboardAfter : Board String) (keepFree : Board Bool)
    (hasWhiteKing : Bool) (attackedSquaresBefore attackedSquaresAfter : Board (Option Square)) :
    List Square → Option (Board String × Square)
  | [] => none
  | square :: rest =>
    if keepFree square then
      placeKingsCheckmateLoop endSquare chessboardBefore chessboardAfter keepFree hasWhiteKing
        attackedSquaresBefore attackedSquaresAfter rest
    else if (attackedSquaresBefore square).isSome then
      placeKingsCheckmateLoop endSquare chessboardBefore chessboardAfter keepFree hasWhiteKing
        attackedSquaresBefore attackedSquaresAfter rest
    else if !(attackedSquaresAfter square).isSome then
      placeKingsCheckmateLoop endSquare chessboardBefore chessboardAfter keepFree hasWhiteKing
        attackedSquaresBefore attackedSquaresAfter rest
    else if hasWhiteKing && square.isAdjacent endSquare 1 then
      placeKingsCheckmateLoop endSquare chessboardBefore chessboardAfter keepFree hasWhiteKing
        attackedSquaresBefore attackedSquaresAfter rest
    else if isCheckmate square attackedSquaresAfter then
      some (chessboardBefore.set square "k", square)
    else if adjacentAllPlacable keepFree attackedSquaresAfter square then
      match boxInBlackKing square endSquare chessboardBefore chessboardAfter
          attackedSquaresAfter with
      | some board => some (board, square)
      | none =>
        placeKingsCheckmateLoop endSquare chessboardBefore chessboardAfter keepFree hasWhiteKing
          attackedSquaresBefore attackedSquaresAfter rest
    else
      placeKingsCheckmateLoop endSquare chessboardBefore chessboardAfter keepFree hasWhiteKing
        attackedSquaresBefore attackedSquaresAfter rest

/-- `placeKingsCheckmate` of the source. -/
def placeKingsCheckmate (endSquare : Square) (chessboardBefore chessboardAfter : Board String)
    (keepFree : Board Bool) (hasWhiteKing : Bool) : Option (Board String) :=
  let attackedSquaresBefore := getAttackedSquares chessboardBefore
  let attackedSquaresAfter := getAttackedSquares chessboardAfter
  match placeKingsCheckmateLoop endSquare chessboardBefore chessboardAfter keepFree hasWhiteKing
      attackedSquaresBefore attackedSquaresAfter SQUARES with
  | none => none
  | some (board, squareBlackKing) =>
    if hasWhiteKing then some board
    else placeWhiteKing board keepFree attackedSquaresAfter squareBlackKing

/-- One row of a move group: the three terminal-status slots
(nothing / check / checkmate) of either the non-capture or the capture side. -/
structure MoveRow where
  noSym : Option (Board String)
  check : Option (Board String)
  mate : Option (Board String)

/-- A move group: non-capture and capture rows (`getEmptyMoveGroup` layout). -/
structure MoveGroup where
  noCapture : MoveRow
  capture : MoveRow

/-- `getEmptyMoveGroup` of the source. -/
def getEmptyMoveGroup : MoveGroup :=
  ⟨⟨none, none, none⟩, ⟨none, none, none⟩⟩

/-- The first loop of `updateMoveGroupCapture`: run the three placement
functions on the empty slots of the row. -/
def updateRowPlace (row : MoveRow) (endSquare : Square)
    (chessboardBefore chessboardAfter : Board String) (keepFree : Board Bool)
    (hasWhiteKing : Bool) : MoveRow :=
  let r0 := match row.noSym with
    | some b => some b
    | none => placeKingsNoCheck endSquare chessboardBefore chessboardAfter keepFree hasWhiteKing
  let r1 := match row.check with
    | some b => some b
    | none => placeKingsCheck endSquare chessboardBefore chessboardAfter keepFree hasWhiteKing
  let r2 := match row.mate with
    | some b => some b
    | none => placeKingsCheckmate endSquare chessboardBefore chessboardAfter keepFree hasWhiteKing
  ⟨r0, r1, r2⟩

/-- The discovered-attack loop of `updateMoveGroupCapture` for one attacker
piece: place the attacker, retry check and checkmate, then remove it again.
The state threads the row and the three mutated boards. -/
def discoveredLoop (pieceDiscovered : String) (startSquare endSquare : Square)
    (hasWhiteKing : Bool) (row : MoveRow)
    (chessboardBefore chessboardAfter : Board String) (keepFree : Board Bool) :
    List Offset → MoveRow × Board String × Board String × Board Bool
  | [] => (row, chessboardBefore, chessboardAfter, keepFree)
  | offset :: rest =>
    let squareAttacker := startSquare.add offset
    if !squareAttacker.onBoard then
      discoveredLoop pieceDiscovered startSquare endSquare hasWhiteKing row
        chessboardBefore chessboardAfter keepFree rest
    else if row.check.isSome && row.mate.isSome then
      (row, chessboardBefore, chessboardAfter, keepFree)
    else if keepFree squareAttacker then
      discoveredLoop pieceDiscovered startSquare endSquare hasWhiteKing row
        chessboardBefore chessboardAfter keepFree rest
    else
      let before1 := chessboardBefore.set squareAttacker pieceDiscovered
      let after1 := chessboardAfter.set squareAttacker pieceDiscovered
      let keepFree1 := keepFree.set squareAttacker true
      let check1 :=
        if row.check.isSome then row.check
        else placeKingsCheck endSquare before1 after1 keepFree1 hasWhiteKing
      let mate1 :=
        if row.mate.isSome then row.mate
        else placeKingsCheckmate endSquare before1 after1 keepFree1 hasWhiteKing
      let row1 : MoveRow := ⟨row.noSym, check1, mate1⟩
      discoveredLoop pieceDiscovered startSquare endSquare hasWhiteKing row1
        (before1.set squareAttacker "") (after1.set squareAttacker "")
        (keepFree1.set squareAttacker false) rest

/-- `updateMoveGroupCapture` of the source: fill empty slots of one row, then
try discovered attackers (rook, then bishop), skipping the attacker equal to
the moving piece and skipping both for queen moves.  Returns the updated row
together with the boards as the source's in-place mutation leaves them. -/
def updateMoveGroupCapture (row : MoveRow) (piece : String) (startSquare endSquare : Square)
    (chessboardBefore chessboardAfter : Board String) (keepFree : Board Bool) :
    MoveRow × Board String × Board String × Board Bool :=
  let hasWhiteKing := piece = "K"
  let row1 := updateRowPlace row endSquare chessboardBefore chessboardAfter keepFree hasWhiteKing
  let st1 :=
    if piece = "Q" ∨ piece = "R" then (row1, chessboardBefore, chessboardAfter, keepFree)
    else discoveredLoop "R" startSquare endSquare hasWhiteKing row1
      chessboardBefore chessboardAfter keepFree ROOK_DIRECTIONS
  if piece = "Q" ∨ piece = "B" then st1
  else discoveredLoop "B" startSquare endSquare hasWhiteKing st1.1
    st1.2.1 st1.2.2.1 st1.2.2.2 BISHOP_DIRECTIONS

/-- The `while` march of `updateMoveGroup` that reserves the line from a
placed piece to the end square.  At most 7 steps are needed, hence fuel 8. -/
def markLine (fuel : Nat) (keepFree : Board Bool) (square endSquare : Square)
    (direction : Offset) : Board Bool :=
  match fuel with
  | 0 => keepFree
  | fuel + 1 =>
    if square = endSquare then keepFree
    else markLine fuel (keepFree.set square true) (square.add direction) endSquare direction

/-- The piece-placement loop of `updateMoveGroup`: place the moving piece and
its companions on a fresh board and compute the reserved squares, then derive
the post-move board. -/
def moveGroupSetup (piece : String) (startSquare endSquare : Square)
    (otherSquares : List Square) (promotePiece : String) :
    Board String × Board String × Board Bool :=
  let step := fun (st : Board String × Board Bool) (square : Square) =>
    let before := st.1.set square piece
    let keepFree :=
      if piece = "N" then st.2.set square true
      else
        let direction : Offset :=
          ⟨sign (endSquare.file - square.file), sign (endSquare.rank - square.rank)⟩
        markLine 8 st.2 square endSquare direction
    (before, keepFree.set endSquare true)
  let st := (startSquare :: otherSquares).foldl step (Board.init "", Board.init false)
  let chessboardAfter :=
    (st.1.set startSquare "").set endSquare (if promotePiece = "" then piece else promotePiece)
  (st.1, chessboardAfter, st.2)

/-- The pre-move board that `updateMoveGroup` passes to the capture-side
`updateMoveGroupCapture` call: the board left by the non-capture call with the
placeholder enemy piece written on the end square (`chessboardBefore[endSquare]
= "n"` in the source). -/
def captureBoardBefore (mg : MoveGroup) (piece : String) (startSquare endSquare : Square)
    (otherSquares : List Square) (promotePiece : String) : Board String :=
  let setup := moveGroupSetup piece startSquare endSquare otherSquares promotePiece
  let st := updateMoveGroupCapture mg.noCapture piece startSquare endSquare
    setup.1 setup.2.1 setup.2.2
  (st.2.1).set endSquare "n"

/-- `updateMoveGroup` of the source. -/
def updateMoveGroup (mg : MoveGroup) (piece : String) (startSquare endSquare : Square)
    (otherSquares : List Square) (promotePiece : String) : MoveGroup :=
  let alreadyFull :=
    mg.noCapture.noSym.isSome && mg.noCapture.check.isSome && mg.noCapture.mate.isSome &&
      mg.capture.noSym.isSome && mg.capture.check.isSome && mg.capture.mate.isSome
  if alreadyFull then mg
  else
    let setup := moveGroupSetup piece startSquare endSquare otherSquares promotePiece
    let st := updateMoveGroupCapture mg.noCapture piece startSquare endSquare
      setup.1 setup.2.1 setup.2.2
    let st2 := updateMoveGroupCapture mg.capture piece startSquare endSquare
      (captureBoardBefore mg piece startSquare endSquare otherSquares promotePiece)
      st.2.2.1 st.2.2.2
    ⟨st.1, st2.1⟩

/-- Python's `str.split(sep)` for a one-character separator. -/
def splitOnChar (sep : Char) : List Char → List (List Char)
  | [] => [[]]
  | c :: rest =>
    let r := splitOnChar sep rest
    if c = sep then [] :: r
    else
      match r with
      | [] => [[c]]
      | h :: t => (c :: h) :: t

/-- The single-digit characters written by the serializer (`str(emptySquares)`
for counts between 1 and 8). -/
def digitChar48 (n : Nat) : Char := Char.ofNat (48 + n)

/-- The inner loop of `fenToChessboard` for one rank string: digits skip
files, other characters are written to the board.  A write beyond file 7 is
an index error of the source, modelled as `none`. -/
def fenRankLoop (rank : Int) : List Char → Int → Board String → Option (Board String)
  | [], _, b => some b
  | c :: rest, file, b =>
    if c.isDigit then fenRankLoop rank rest (file + ((c.toNat : Int) - 48)) b
    else if file ≤ 7 then fenRankLoop rank rest (file + 1) (b.set ⟨file, rank⟩ c.toString)
    else none

/-- The outer loop of `fenToChessboard`: ranks from 7 down to 0. -/
def fenRanksLoop : List (List Char) → Int → Board String → Option (Board String)
  | [], _, b => some b
  | l :: rest, rank, b =>
    match fenRankLoop rank l 0 b with
    | none => none
    | some b1 => fenRanksLoop rest (rank - 1) b1

/-- `fenToChessboard` of the source.  Fewer than 8 rank groups is an index
error of the source, modelled as `none`; surplus rank groups are ignored. -/
def fenToChessboard (fen : String) : Option (Board String) :=
  let chessboardStr := (splitOnChar ' ' fen.data).headD []
  let ranks := splitOnChar '/' chessboardStr
  if ranks.length < 8 then none
  else fenRanksLoop (ranks.take 8) 7 (Board.init "")

/-- Python's `str.swapcase` on one character. -/
def swapCaseChar (c : Char) : Char :=
  if c.isUpper then c.toLower else if c.isLower then c.toUpper else c

/-- Python's `str.swapcase`. -/
def swapCase (s : String) : String := String.mk (s.data.map swapCaseChar)

/-- The per-rank loop of `chessboardToFen`: count runs of empty squares,
flush the count as a digit before each piece and at the end of the rank. -/
def encodeRankGo (chessboard : Board String) (rank : Int) (swapPlayers : Bool) :
    List Int → Nat → List Char
  | [], emptySquares => if emptySquares = 0 then [] else [digitChar48 emptySquares]
  | file :: files, emptySquares =>
    let cell := chessboard ⟨file, rank⟩
    if cell = "" then encodeRankGo chessboard rank swapPlayers files (emptySquares + 1)
    else
      (if emptySquares = 0 then [] else [digitChar48 emptySquares]) ++
        (if swapPlayers then swapCase cell else cell).data ++
        encodeRankGo chessboard rank swapPlayers files 0

/-- Python's `sep.join(parts)` for a one-character separator
(`"/".join(ranks)` of the source). -/
def joinSep (sep : Char) : List (List Char) → List Char
  | [] => []
  | [l] => l
  | l :: l2 :: rest => l ++ sep :: joinSep sep (l2 :: rest)

/-- `chessboardToFen` of the source, with the `flipFiles`, `flipRanks` and
`swapPlayers` flags. -/
def chessboardToFen (chessboard : Board String) (flipFiles flipRanks swapPlayers : Bool) :
    String :=
  let rankOrder := if flipRanks then intRange8 else intRange8Rev
  let fileOrder := if flipFiles then intRange8Rev else intRange8
  let ranks := rankOrder.map (fun rank => encodeRankGo chessboard rank swapPlayers fileOrder 0)
  let player := if swapPlayers then "b" else "w"
  String.mk (joinSep '/' ranks) ++ " " ++ player ++ " - - 0 1"

/-- The board field of a FEN string: the part before the first blank
(`fen.split(" ")[0]` of the source). -/
def boardField (s : String) : String :=
  String.mk ((splitOnChar ' ' s.data).headD [])

/-- The twelve piece letters of a position string. -/
def isPieceChar (c : Char) : Bool :=
  c = 'K' || c = 'Q' || c = 'R' || c = 'B' || c = 'N' || c = 'P' ||
    c = 'k' || c = 'q' || c = 'r' || c = 'b' || c = 'n' || c = 'p'

/-- Modelled from the spec: validity of one rank group of a position string
("each rank encoding run-lengths of empty squares and single-letter piece
codes").  A run-length encoding writes each maximal run of empty squares as
one digit 1..8, so no two digits are adjacent, and the cells of the rank sum
to 8.  The flag records whether the previous character was a digit, the
counter the cells seen so far. -/
def validRankAux : List Char → Bool → Nat → Bool
  | [], _, n => n == 8
  | c :: rest, prevDigit, n =>
    if isPieceChar c then validRankAux rest false (n + 1)
    else if c.isDigit && decide (1 ≤ c.toNat - 48) && decide (c.toNat - 48 ≤ 8) &&
        !prevDigit then
      validRankAux rest true (n + (c.toNat - 48))
    else false

/-- Validity of one rank group. -/
def validRank (cs : List Char) : Bool := validRankAux cs false 0

/-- Modelled from the spec: a syntactically valid single-board-field position
string is 8 valid rank groups separated by a slash character. -/
def validBoardField (s : String) : Bool :=
  let ranks := splitOnChar '/' s.data
  ranks.length == 8 && ranks.all validRank

/-- The cell sequence a rank group denotes: digits expand to runs of empty
cells, piece characters to one-piece cells. -/
def decodeCells (cs : List Char) : List String :=
  cs.flatMap (fun c =>
    if c.isDigit then List.replicate (c.toNat - 48) "" else [c.toString])

/-- Specification-level run-length encoder of a cell sequence, used to relate
`encodeRankGo` to the parsed rank group. -/
def encodeCellsGo : List String → Nat → List Char
  | [], emptySquares => if emptySquares = 0 then [] else [digitChar48 emptySquares]
  | cell :: rest, emptySquares =>
    if cell = "" then encodeCellsGo rest (emptySquares + 1)
    else
      (if emptySquares = 0 then [] else [digitChar48 emptySquares]) ++
        cell.data ++ encodeCellsGo rest 0

/-- `fileToStr` of the source. -/
def fileToStr (file : Int) : String :=
  String.singleton (Char.ofNat (97 + file).toNat)

/-- `rankToStr` of the source (`str(1 + rank)`). -/
def rankToStr (rank : Int) : String := toString (1 + rank)

/-- `strToFile` of the source, on one character. -/
def strToFile (c : Char) : Int := (c.toNat : Int) - 97

/-- `strToRank` of the source, on one character (`int(rankStr) - 1`; a
non-digit character is a `ValueError` of the source). -/
def strToRank (c : Char) : Int := ((c.toNat : Int) - 48) - 1

/-- `strToSquare` of the source.  Strings shorter than two characters or with
a non-digit rank character crash the source, modelled as `none`. -/
def strToSquare (s : String) : Option Square :=
  match s.data with
  | c0 :: c1 :: _ => if c1.isDigit then some ⟨strToFile c0, strToRank c1⟩ else none
  | _ => none

/-- `flipFileRank` of the source. -/
def flipFileRank (s : String) (flipFiles flipRanks : Bool) : String :=
  s.data.foldl (fun acc c =>
    if c.isLower && flipFiles then acc ++ fileToStr (7 - strToFile c)
    else if c.isDigit && flipRanks then acc ++ rankToStr (7 - strToRank c)
    else acc ++ c.toString) ""

/-- The scanning loop of `parseMove`: consume alphanumeric characters,
routing `x` to the capture symbol and the rest to the coordinates. -/
def parseMoveGo : List Char → List Char → String → List Char × String × List Char
  | [], coords, capture => (coords, capture, [])
  | c :: rest, coords, capture =>
    if c.isAlphanum then
      if c = 'x' then parseMoveGo rest coords "x"
      else parseMoveGo rest (coords ++ [c]) capture
    else (coords, capture, c :: rest)

/-- `parseMove` of the source: split a move string into piece symbol,
disambiguation, capture symbol, end-square name and the rest. -/
def parseMove (move : String) : String × String × String × String × String :=
  let cs := move.data
  let piece : String :=
    match cs with
    | c :: _ => if c.isUpper then c.toString else ""
    | [] => ""
  let cs1 :=
    match cs with
    | c :: rest => if c.isUpper then rest else cs
    | [] => []
  let parsed := parseMoveGo cs1 [] ""
  let coords := parsed.1
  (piece, String.mk (coords.take (coords.length - 2)), parsed.2.1,
    String.mk (coords.drop (coords.length - 2)), String.mk parsed.2.2)

/-- The four file/rank reflection combinations, in the product order of the
source (`product([False, True], repeat=2)`). -/
def flipCombos : List (Bool × Bool) :=
  [(false, false), (false, true), (true, false), (true, true)]

/-- One reflected override entry of `readManualMoves`: the flipped move string
paired with the flipped position string. -/
def manualEntryBase (move : String) (chessboard : Board String) (ff fr : Bool) :
    String × String :=
  let parsed := parseMove move
  let piece := parsed.1
  let pawnMove := decide (piece = "")
  ((piece ++ flipFileRank parsed.2.1 ff fr) ++ parsed.2.2.1 ++
      (flipFileRank parsed.2.2.2.1 ff fr ++ parsed.2.2.2.2),
    chessboardToFen chessboard ff fr (fr && pawnMove))

/-- The derived capturing override entry of `readManualMoves`: capture symbol
inserted and a placeholder enemy piece on the end square. -/
def manualEntryCapture (move : String) (chessboard : Board String) (endSquare : Square)
    (ff fr : Bool) : String × String :=
  let parsed := parseMove move
  let piece := parsed.1
  let pawnMove := decide (piece = "")
  ((piece ++ flipFileRank parsed.2.1 ff fr) ++ "x" ++
      (flipFileRank parsed.2.2.2.1 ff fr ++ parsed.2.2.2.2),
    chessboardToFen (chessboard.set endSquare "n") ff fr (fr && pawnMove))

/-- The reflection loop of `readManualMoves`: for each flip combination the
base entry of the current board is stored; for capture-less non-pawn moves a
derived capture entry follows and the loop continues with the mutated board,
whose end square was set to the placeholder and then reset to the empty
string (not to its original content). -/
def processManualEntryLoop (move : String) (endSquare : Square)
    (combos : List (Bool × Bool)) (chessboard : Board String) :
    List (String × String) :=
  match combos with
  | [] => []
  | p :: rest =>
    let parsed := parseMove move
    if parsed.2.2.1 = "" ∧ ¬parsed.1 = "" then
      manualEntryBase move chessboard p.1 p.2 ::
        manualEntryCapture move chessboard endSquare p.1 p.2 ::
        processManualEntryLoop move endSquare rest
          ((chessboard.set endSquare "n").set endSquare "")
    else
      manualEntryBase move chessboard p.1 p.2 ::
        processManualEntryLoop move endSquare rest chessboard

/-- Processing of one extracted override entry of `readManualMoves`: castle
entries are stored once, all others are expanded over the four reflections by
`processManualEntryLoop`, threading the shared mutable board through the
loop.  A crash of the source (empty move, unparsable position string or end
square) is `none`. -/
def processManualEntry (move fen : String) : Option (List (String × String)) :=
  if move = "" then none
  else if move.data.headD ' ' = 'O' then some [(move, fen)]
  else
    let parsed := parseMove move
    match fenToChessboard fen, strToSquare parsed.2.2.2.1 with
    | some chessboard, some endSquare =>
      some (processManualEntryLoop move endSquare flipCombos chessboard)
    | _, _ => none

/-- Python's `str.rstrip`. -/
def rstrip (s : String) : String :=
  String.mk (s.data.reverse.dropWhile Char.isWhitespace).reverse

/-- `re.split(" +", line, 1)` of the source: split at the first run of
blanks, if any. -/
def splitFirstSpacesGo (acc : List Char) : List Char → List String
  | [] => [String.mk acc]
  | c :: rest =>
    if c = ' ' then [String.mk acc, String.mk (rest.dropWhile (fun d => d = ' '))]
    else splitFirstSpacesGo (acc ++ [c]) rest

/-- `re.split(" +", line, 1)` of the source. -/
def splitFirstSpaces (cs : List Char) : List String := splitFirstSpacesGo [] cs

/-- One line of `readManualMoves`: skip comments and lines without exactly two
tokens, otherwise process the entry (a crash is `none`). -/
def readManualMovesStep (acc : List (String × String)) (line : String) :
    Option (List (String × String)) :=
  if line.data.headD ' ' = '#' then some acc
  else
    match splitFirstSpaces (rstrip line).data with
    | [move, fen] =>
      match processManualEntry move fen with
      | none => none
      | some entries => some (acc ++ entries)
    | _ => some acc

/-- `readManualMoves` of the source over the lines of the override file,
collecting the inserted dictionary entries in insertion order.  `none` models
a crash of the source on a malformed entry. -/
def readManualMovesLines (lines : List String) : Option (List (String × String)) :=
  lines.foldlM readManualMovesStep []

/-- The board parsed from the empty position string, a concrete test board. -/
def q8Board : Board String :=
  (fenToChessboard "8/8/8/8/8/8/8/8").getD (Board.init "")

theorem Board.set_same {α : Type} (b : Board α) (s : Square) (v : α) : (b.set s v) s = v := by
  simp [Board.set]

theorem Board.set_other {α : Type} (b : Board α) (s t : Square) (v : α) (h : t ≠ s) :
    (b.set s v) t = b t := by
  simp [Board.set, h]

theorem mem_intRange8_iff (c : Int) : c ∈ intRange8 ↔ 0 ≤ c ∧ c ≤ 7 := by
  simp only [intRange8, List.mem_cons, List.not_mem_nil, or_false]
  omega

theorem mem_SQUARES_iff (s : Square) : s ∈ SQUARES ↔ s.onBoard = true := by
  constructor
  · intro h
    rw [SQUARES, List.mem_flatMap] at h
    obtain ⟨f, hf, hmem⟩ := h
    rw [List.mem_map] at hmem
    obtain ⟨r, hr, rfl⟩ := hmem
    rw [mem_intRange8_iff] at hf
    rw [mem_intRange8_iff] at hr
    simp only [Square.onBoard, Bool.and_eq_true, decide_eq_true_iff]
    omega
  · intro h
    simp only [Square.onBoard, Bool.and_eq_true, decide_eq_true_iff] at h
    rw [SQUARES, List.mem_flatMap]
    refine ⟨s.file, ?_, ?_⟩
    · rw [mem_intRange8_iff]; omega
    · rw [List.mem_map]
      exact ⟨s.rank, by rw [mem_intRange8_iff]; omega, rfl⟩

/-- C4, amended: at every synthesis attempt, the pre-move board used for the
capture variants holds the placeholder enemy piece `"n"` (a black knight) on
the end square at the moment the capture move group is filled. -/
theorem captureBoardBefore_placeholder (mg : MoveGroup) (piece : String)
    (startSquare endSquare : Square) (otherSquares : List Square) (promotePiece : String) :
    captureBoardBefore mg piece startSquare endSquare otherSquares promotePiece endSquare
      = "n" := by
  simp [captureBoardBefore, Board.set]

/-- C4, counterexample to the claim as stated: at a concrete synthesis attempt
the end square of the capture-side pre-move board holds `"n"`, not the
black-pawn symbol `"p"`. -/
theorem captureBoardBefore_not_pawn_counterexample :
    captureBoardBefore getEmptyMoveGroup "R" ⟨0, 0⟩ ⟨0, 3⟩ [] "" ⟨0, 3⟩ ≠ "p" := by
  decide

theorem Square.add_offset_injective (s : Square) (o o' : Offset) (h : s.add o = s.add o') :
    o = o' := by
  cases o
  cases o'
  simp only [Square.add, Square.mk.injEq] at h
  simp only [Offset.mk.injEq]
  omega

theorem markAttackedSquaresJump_not_landing (startSquare : Square)
    (attackedSquares : Board (Option Square)) (jumps : List Offset) (sq : Square)
    (h : ∀ j ∈ jumps, startSquare.add j ≠ sq) :
    markAttackedSquaresJump startSquare attackedSquares jumps sq = attackedSquares sq := by
  induction jumps generalizing attackedSquares with
  | nil => rfl
  | cons j rest ih =>
    have hj : startSquare.add j ≠ sq := h j (List.mem_cons_self j rest)
    have hrest : ∀ j' ∈ rest, startSquare.add j' ≠ sq :=
      fun j' hj' => h j' (List.mem_cons_of_mem j hj')
    simp only [markAttackedSquaresJump, List.foldl_cons]
    rw [show (List.foldl _ _ rest : Board (Option Square)) sq =
        markAttackedSquaresJump startSquare _ rest sq from rfl, ih _ hrest]
    by_cases hb : (startSquare.add j).onBoard = true
    · by_cases ha : (startSquare.add j).isAdjacent startSquare 1 = true
      · simp [hb, ha, Board.set_other _ _ _ _ (Ne.symm hj)]
      · simp [hb, ha, Board.set_other _ _ _ _ (Ne.symm hj)]
    · simp [hb]

theorem markAttackedSquaresJump_cons (startSquare : Square)
    (attackedSquares : Board (Option Square)) (o : Offset) (rest : List Offset) :
    markAttackedSquaresJump startSquare attackedSquares (o :: rest) =
      markAttackedSquaresJump startSquare
        (if (startSquare.add o).onBoard then
          (if (startSquare.add o).isAdjacent startSquare 1 then
            attackedSquares.set (startSquare.add o) (some startSquare)
          else attackedSquares.set (startSquare.add o) (some ⟨-1, -1⟩))
        else attackedSquares) rest := rfl

/-- C5, amended: for a jump piece, every on-board landing square is marked;
the landing records the sentinel `Square(-1, -1)` exactly when it is not
adjacent to the start square (knight jumps), and the start square itself when
it is adjacent (pawn and king jumps). -/
theorem markAttackedSquaresJump_value (startSquare : Square)
    (attackedSquares : Board (Option Square)) (jumps : List Offset) (j : Offset)
    (hnd : jumps.Nodup) (hmem : j ∈ jumps) (hb : (startSquare.add j).onBoard = true) :
    markAttackedSquaresJump startSquare attackedSquares jumps (startSquare.add j) =
      some (if (startSquare.add j).isAdjacent startSquare 1 = true then startSquare
        else ⟨-1, -1⟩) := by
  induction jumps generalizing attackedSquares with
  | nil => cases hmem
  | cons o rest ih =>
    have hnd' := (List.nodup_cons.mp hnd).2
    rw [markAttackedSquaresJump_cons]
    by_cases hjr : j ∈ rest
    · exact ih _ hnd' hjr
    · have hjo : j = o := by
        rcases List.mem_cons.mp hmem with h | h
        · exact h
        · exact absurd h hjr
      subst hjo
      have hnl : ∀ j' ∈ rest, startSquare.add j' ≠ startSquare.add j := by
        intro j' hj' heq
        exact hjr (Square.add_offset_injective _ _ _ heq ▸ hj')
      rw [markAttackedSquaresJump_not_landing _ _ _ _ hnl]
      by_cases ha : (startSquare.add j).isAdjacent startSquare 1 = true
      · simp [hb, ha, Board.set_same]
      · simp [hb, ha, Board.set_same]

set_option maxRecDepth 4000 in
/-- C5, counterexample to the claim as stated: a king on a1 attacks b1, yet
the attack field records the concrete start square a1 there, not the
sentinel. -/
theorem getAttackedSquares_jump_sentinel_counterexample :
    (getAttackedSquares ((Board.init "").set ⟨0, 0⟩ "K")) ⟨0, 1⟩ = some ⟨0, 0⟩ ∧
      some (Square.mk 0 0) ≠ some (Square.mk (-1) (-1)) := by
  constructor
  · decide
  · decide

/-- C5 witness: a concrete knight jump landing records the sentinel. -/
theorem markAttackedSquaresJump_value_witness :
    (KNIGHT_JUMPS.Nodup ∧ (⟨1, 2⟩ : Offset) ∈ KNIGHT_JUMPS ∧
        (Square.add ⟨3, 3⟩ ⟨1, 2⟩).onBoard = true) ∧
      markAttackedSquaresJump ⟨3, 3⟩ (Board.init none) KNIGHT_JUMPS
          (Square.add ⟨3, 3⟩ ⟨1, 2⟩) =
        some (if (Square.add ⟨3, 3⟩ ⟨1, 2⟩).isAdjacent ⟨3, 3⟩ 1 = true then ⟨3, 3⟩
          else ⟨-1, -1⟩) :=
  ⟨⟨by decide, by decide, by decide⟩,
    markAttackedSquaresJump_value ⟨3, 3⟩ (Board.init none) KNIGHT_JUMPS ⟨1, 2⟩
      (by decide) (by decide) (by decide)⟩

theorem updateRowPlace_noSym (row : MoveRow) (endSquare : Square)
    (chessboardBefore chessboardAfter : Board String) (keepFree : Board Bool)
    (hasWhiteKing : Bool) (x : Board String) (h : row.noSym = some x) :
    (updateRowPlace row endSquare chessboardBefore chessboardAfter keepFree
      hasWhiteKing).noSym = some x := by
  simp [updateRowPlace, h]

theorem updateRowPlace_check (row : MoveRow) (endSquare : Square)
    (chessboardBefore chessboardAfter : Board String) (keepFree : Board Bool)
    (hasWhiteKing : Bool) (x : Board String) (h : row.check = some x) :
    (updateRowPlace row endSquare chessboardBefore chessboardAfter keepFree
      hasWhiteKing).check = some x := by
  simp [updateRowPlace, h]

theorem updateRowPlace_mate (row : MoveRow) (endSquare : Square)
    (chessboardBefore chessboardAfter : Board String) (keepFree : Board Bool)
    (hasWhiteKing : Bool) (x : Board String) (h : row.mate = some x) :
    (updateRowPlace row endSquare chessboardBefore chessboardAfter keepFree
      hasWhiteKing).mate = some x := by
  simp [updateRowPlace, h]

theorem discoveredLoop_preserves (pieceDiscovered : String) (startSquare endSquare : Square)
    (hasWhiteKing : Bool) (offsets : List Offset) :
    ∀ (row : MoveRow) (b a : Board String) (k : Board Bool),
      (discoveredLoop pieceDiscovered startSquare endSquare hasWhiteKing row b a k
          offsets).1.noSym = row.noSym ∧
      (∀ x, row.check = some x →
        (discoveredLoop pieceDiscovered startSquare endSquare hasWhiteKing row b a k
          offsets).1.check = some x) ∧
      (∀ x, row.mate = some x →
        (discoveredLoop pieceDiscovered startSquare endSquare hasWhiteKing row b a k
          offsets).1.mate = some x) := by
  induction offsets with
  | nil => exact fun row b a k => ⟨rfl, fun x h => h, fun x h => h⟩
  | cons o rest ih =>
    intro row b a k
    by_cases h1 : (startSquare.add o).onBoard = true
    · by_cases h2 : (row.check.isSome && row.mate.isSome) = true
      · simp only [discoveredLoop, h1, h2, Bool.not_true, if_false, if_true]
        exact ⟨rfl, fun x h => h, fun x h => h⟩
      · by_cases h3 : k (startSquare.add o) = true
        · simp only [discoveredLoop, h1, h2, h3, Bool.not_true, if_false, if_true]
          exact ih row b a k
        · simp only [discoveredLoop, h1, h2, h3, Bool.not_true, if_false, if_true]
          refine ⟨?_, ?_, ?_⟩
          · exact (ih _ _ _ _).1
          · intro x hx
            refine (ih _ _ _ _).2.1 x ?_
            simp [hx]
          · intro x hx
            refine (ih _ _ _ _).2.2 x ?_
            simp [hx]
    · simp only [discoveredLoop, h1, Bool.not_false, if_true]
      exact ih row b a k

theorem updateMoveGroupCapture_preserves (row : MoveRow) (piece : String)
    (startSquare endSquare : Square) (chessboardBefore chessboardAfter : Board String)
    (keepFree : Board Bool) :
    (∀ x, row.noSym = some x →
      (updateMoveGroupCapture row piece startSquare endSquare chessboardBefore
        chessboardAfter keepFree).1.noSym = some x) ∧
    (∀ x, row.check = some x →
      (updateMoveGroupCapture row piece startSquare endSquare chessboardBefore
        chessboardAfter keepFree).1.check = some x) ∧
    (∀ x, row.mate = some x →
      (updateMoveGroupCapture row piece startSquare endSquare chessboardBefore
        chessboardAfter keepFree).1.mate = some x) := by
  unfold updateMoveGroupCapture
  by_cases hR : (piece = "Q" ∨ piece = "R")
  · by_cases hB : (piece = "Q" ∨ piece = "B")
    · simp only [hR, hB, if_true]
      exact ⟨fun x h => updateRowPlace_noSym _ _ _ _ _ _ x h,
        fun x h => updateRowPlace_check _ _ _ _ _ _ x h,
        fun x h => updateRowPlace_mate _ _ _ _ _ _ x h⟩
    · simp only [hR, hB, if_true, if_false]
      refine ⟨?_, ?_, ?_⟩
      · intro x h
        rw [(discoveredLoop_preserves _ _ _ _ _ _ _ _ _).1]
        exact updateRowPlace_noSym _ _ _ _ _ _ x h
      · intro x h
        exact (discoveredLoop_preserves _ _ _ _ _ _ _ _ _).2.1 x
          (updateRowPlace_check _ _ _ _ _ _ x h)
      · intro x h
        exact (discoveredLoop_preserves _ _ _ _ _ _ _ _ _).2.2 x
          (updateRowPlace_mate _ _ _ _ _ _ x h)
  · by_cases hB : (piece = "Q" ∨ piece = "B")
    · simp only [hR, hB, if_true, if_false]
      refine ⟨?_, ?_, ?_⟩
      · intro x h
        rw [(discoveredLoop_preserves _ _ _ _ _ _ _ _ _).1]
        exact updateRowPlace_noSym _ _ _ _ _ _ x h
      · intro x h
        exact (discoveredLoop_preserves _ _ _ _ _ _ _ _ _).2.1 x
          (updateRowPlace_check _ _ _ _ _ _ x h)
      · intro x h
        exact (discoveredLoop_preserves _ _ _ _ _ _ _ _ _).2.2 x
          (updateRowPlace_mate _ _ _ _ _ _ x h)
    · simp only [hR, hB, if_false]
      refine ⟨?_, ?_, ?_⟩
      · intro x h
        rw [(discoveredLoop_preserves _ _ _ _ _ _ _ _ _).1,
          (discoveredLoop_preserves _ _ _ _ _ _ _ _ _).1]
        exact updateRowPlace_noSym _ _ _ _ _ _ x h
      · intro x h
        exact (discoveredLoop_preserves _ _ _ _ _ _ _ _ _).2.1 x
          ((discoveredLoop_preserves _ _ _ _ _ _ _ _ _).2.1 x
            (updateRowPlace_check _ _ _ _ _ _ x h))
      · intro x h
        exact (discoveredLoop_preserves _ _ _ _ _ _ _ _ _).2.2 x
          ((discoveredLoop_preserves _ _ _ _ _ _ _ _ _).2.2 x
            (updateRowPlace_mate _ _ _ _ _ _ x h))

/-- C6: neither `updateMoveGroup` nor `updateMoveGroupCapture` ever overwrites
an already-filled variant slot: every slot holding a board at entry holds the
identical board at exit. -/
theorem moveGroup_slots_preserved (mg : MoveGroup) (piece : String)
    (startSquare endSquare : Square) (otherSquares : List Square) (promotePiece : String)
    (row : MoveRow) (pieceC : String) (startC endC : Square)
    (chessboardBefore chessboardAfter : Board String) (keepFree : Board Bool) :
    (∀ x, mg.noCapture.noSym = some x →
      (updateMoveGroup mg piece startSquare endSquare otherSquares
        promotePiece).noCapture.noSym = some x) ∧
    (∀ x, mg.noCapture.check = some x →
      (updateMoveGroup mg piece startSquare endSquare otherSquares
        promotePiece).noCapture.check = some x) ∧
    (∀ x, mg.noCapture.mate = some x →
      (updateMoveGroup mg piece startSquare endSquare otherSquares
        promotePiece).noCapture.mate = some x) ∧
    (∀ x, mg.capture.noSym = some x →
      (updateMoveGroup mg piece startSquare endSquare otherSquares
        promotePiece).capture.noSym = some x) ∧
    (∀ x, mg.capture.check = some x →
      (updateMoveGroup mg piece startSquare endSquare otherSquares
        promotePiece).capture.check = some x) ∧
    (∀ x, mg.capture.mate = some x →
      (updateMoveGroup mg piece startSquare endSquare otherSquares
        promotePiece).capture.mate = some x) ∧
    (∀ x, row.noSym = some x →
      (updateMoveGroupCapture row pieceC startC endC chessboardBefore chessboardAfter
        keepFree).1.noSym = some x) ∧
    (∀ x, row.check = some x →
      (updateMoveGroupCapture row pieceC startC endC chessboardBefore chessboardAfter
        keepFree).1.check = some x) ∧
    (∀ x, row.mate = some x →
      (updateMoveGroupCapture row pieceC startC endC chessboardBefore chessboardAfter
        keepFree).1.mate = some x) := by
  by_cases hf :
      (mg.noCapture.noSym.isSome && mg.noCapture.check.isSome && mg.noCapture.mate.isSome &&
        mg.capture.noSym.isSome && mg.capture.check.isSome && mg.capture.mate.isSome) = true
  · simp only [updateMoveGroup, hf, if_true]
    exact ⟨fun x h => h, fun x h => h, fun x h => h, fun x h => h, fun x h => h, fun x h => h,
      (updateMoveGroupCapture_preserves _ _ _ _ _ _ _).1,
      (updateMoveGroupCapture_preserves _ _ _ _ _ _ _).2.1,
      (updateMoveGroupCapture_preserves _ _ _ _ _ _ _).2.2⟩
  · simp only [updateMoveGroup, hf, if_false]
    exact ⟨(updateMoveGroupCapture_preserves _ _ _ _ _ _ _).1,
      (updateMoveGroupCapture_preserves _ _ _ _ _ _ _).2.1,
      (updateMoveGroupCapture_preserves _ _ _ _ _ _ _).2.2,
      (updateMoveGroupCapture_preserves _ _ _ _ _ _ _).1,
      (updateMoveGroupCapture_preserves _ _ _ _ _ _ _).2.1,
      (updateMoveGroupCapture_preserves _ _ _ _ _ _ _).2.2,
      (updateMoveGroupCapture_preserves _ _ _ _ _ _ _).1,
      (updateMoveGroupCapture_preserves _ _ _ _ _ _ _).2.1,
      (updateMoveGroupCapture_preserves _ _ _ _ _ _ _).2.2⟩

/-- C6 witness: a concretely pre-filled no-capture slot survives a call. -/
theorem moveGroup_slots_preserved_witness :
    (MoveGroup.mk ⟨some (Board.init "X"), none, none⟩ ⟨none, none, none⟩).noCapture.noSym =
        some (Board.init "X") ∧
      (updateMoveGroup (MoveGroup.mk ⟨some (Board.init "X"), none, none⟩ ⟨none, none, none⟩)
        "R" ⟨0, 0⟩ ⟨0, 3⟩ [] "").noCapture.noSym = some (Board.init "X") :=
  ⟨rfl,
    (moveGroup_slots_preserved
      (MoveGroup.mk ⟨some (Board.init "X"), none, none⟩ ⟨none, none, none⟩) "R" ⟨0, 0⟩ ⟨0, 3⟩
      [] "" ⟨none, none, none⟩ "R" ⟨0, 0⟩ ⟨0, 3⟩ (Board.init "") (Board.init "")
      (Board.init false)).1 (Board.init "X") rfl⟩

theorem Board.set_twice {α : Type} (b : Board α) (s : Square) (v w : α) (t : Square) :
    ((b.set s v).set s w) t = (b.set s w) t := by
  by_cases h : t = s
  · subst h; simp [Board.set]
  · simp [Board.set, h]

theorem Board.set_id {α : Type} (b : Board α) (s : Square) (w : α) (hw : b s = w) (t : Square) :
    (b.set s w) t = b t := by
  by_cases h : t = s
  · subst h; simp [Board.set, hw]
  · simp [Board.set, h]

theorem discoveredLoop_boards (pieceDiscovered : String) (startSquare endSquare : Square)
    (hasWhiteKing : Bool) (offsets : List Offset) :
    ∀ (row : MoveRow) (b a : Board String) (k : Board Bool),
      (∀ sq, sq.onBoard = true → b sq ≠ "" → k sq = true) →
      (∀ sq, sq.onBoard = true → a sq ≠ "" → k sq = true) →
      ∀ t,
        (discoveredLoop pieceDiscovered startSquare endSquare hasWhiteKing row b a k
          offsets).2.1 t = b t ∧
        (discoveredLoop pieceDiscovered startSquare endSquare hasWhiteKing row b a k
          offsets).2.2.1 t = a t ∧
        (discoveredLoop pieceDiscovered startSquare endSquare hasWhiteKing row b a k
          offsets).2.2.2 t = k t := by
  induction offsets with
  | nil => exact fun row b a k _ _ t => ⟨rfl, rfl, rfl⟩
  | cons o rest ih =>
    intro row b a k hb ha t
    by_cases h1 : (startSquare.add o).onBoard = true
    · by_cases h2 : (row.check.isSome && row.mate.isSome) = true
      · simp only [discoveredLoop, h1, h2, Bool.not_true, if_false, if_true]
        exact ⟨rfl, rfl, rfl⟩
      · by_cases h3 : k (startSquare.add o) = true
        · simp only [discoveredLoop, h1, h2, h3, Bool.not_true, if_false, if_true]
          exact ih row b a k hb ha t
        · have hkf : k (startSquare.add o) = false := eq_false_of_ne_true h3
          have hbe : b (startSquare.add o) = "" := by
            by_contra hne
            rw [hb _ h1 hne] at hkf
            cases hkf
          have hae : a (startSquare.add o) = "" := by
            by_contra hne
            rw [ha _ h1 hne] at hkf
            cases hkf
          have eb : ∀ u, ((b.set (startSquare.add o) pieceDiscovered).set
              (startSquare.add o) "") u = b u := fun u => by
            rw [Board.set_twice]
            exact Board.set_id b _ "" hbe u
          have ea : ∀ u, ((a.set (startSquare.add o) pieceDiscovered).set
              (startSquare.add o) "") u = a u := fun u => by
            rw [Board.set_twice]
            exact Board.set_id a _ "" hae u
          have ek : ∀ u, ((k.set (startSquare.add o) true).set
              (startSquare.add o) false) u = k u := fun u => by
            rw [Board.set_twice]
            exact Board.set_id k _ false hkf u
          have hb2 : ∀ sq, sq.onBoard = true →
              ((b.set (startSquare.add o) pieceDiscovered).set (startSquare.add o) "") sq ≠ ""
                → ((k.set (startSquare.add o) true).set (startSquare.add o) false) sq
                  = true := by
            intro sq hs hne
            rw [ek sq]
            exact hb sq hs (by rwa [eb sq] at hne)
          have ha2 : ∀ sq, sq.onBoard = true →
              ((a.set (startSquare.add o) pieceDiscovered).set (startSquare.add o) "") sq ≠ ""
                → ((k.set (startSquare.add o) true).set (startSquare.add o) false) sq
                  = true := by
            intro sq hs hne
            rw [ek sq]
            exact ha sq hs (by rwa [ea sq] at hne)
          simp only [discoveredLoop, h1, h2, h3, Bool.not_true, if_false, if_true]
          obtain ⟨e1, e2, e3⟩ := ih
            ⟨row.noSym,
              if row.check.isSome = true then row.check
              else placeKingsCheck endSquare (b.set (startSquare.add o) pieceDiscovered)
                (a.set (startSquare.add o) pieceDiscovered) (k.set (startSquare.add o) true)
                hasWhiteKing,
              if row.mate.isSome = true then row.mate
              else placeKingsCheckmate endSquare (b.set (startSquare.add o) pieceDiscovered)
                (a.set (startSquare.add o) pieceDiscovered) (k.set (startSquare.add o) true)
                hasWhiteKing⟩
            ((b.set (startSquare.add o) pieceDiscovered).set (startSquare.add o) "")
            ((a.set (startSquare.add o) pieceDiscovered).set (startSquare.add o) "")
            ((k.set (startSquare.add o) true).set (startSquare.add o) false) hb2 ha2 t
          exact ⟨e1.trans (eb t), e2.trans (ea t), e3.trans (ek t)⟩
    · simp only [discoveredLoop, h1, Bool.not_false, if_true]
      exact ih row b a k hb ha t

/-- C10: when every occupied square of the pre-move and post-move boards is
reserved, `updateMoveGroupCapture` returns its pre-move board, post-move board
and keepFree board exactly as it received them: every discovered attacker is
placed on a previously empty, unreserved square and removed again. -/
theorem updateMoveGroupCapture_state_restored (row : MoveRow) (piece : String)
    (startSquare endSquare : Square) (chessboardBefore chessboardAfter : Board String)
    (keepFree : Board Bool)
    (h1 : ∀ sq ∈ SQUARES, chessboardBefore sq ≠ "" → keepFree sq = true)
    (h2 : ∀ sq ∈ SQUARES, chessboardAfter sq ≠ "" → keepFree sq = true) :
    ∀ t,
      (updateMoveGroupCapture row piece startSquare endSquare chessboardBefore
        chessboardAfter keepFree).2.1 t = chessboardBefore t ∧
      (updateMoveGroupCapture row piece startSquare endSquare chessboardBefore
        chessboardAfter keepFree).2.2.1 t = chessboardAfter t ∧
      (updateMoveGroupCapture row piece startSquare endSquare chessboardBefore
        chessboardAfter keepFree).2.2.2 t = keepFree t := by
  have h1' : ∀ sq, sq.onBoard = true → chessboardBefore sq ≠ "" → keepFree sq = true :=
    fun sq hs => h1 sq ((mem_SQUARES_iff sq).mpr hs)
  have h2' : ∀ sq, sq.onBoard = true → chessboardAfter sq ≠ "" → keepFree sq = true :=
    fun sq hs => h2 sq ((mem_SQUARES_iff sq).mpr hs)
  unfold updateMoveGroupCapture
  by_cases hR : (piece = "Q" ∨ piece = "R")
  · by_cases hB : (piece = "Q" ∨ piece = "B")
    · simp only [hR, hB, if_true]
      exact fun t => ⟨trivial, trivial, trivial⟩
    · simp only [hR, hB, if_true, if_false]
      exact discoveredLoop_boards _ _ _ _ _ _ _ _ _ h1' h2'
  · by_cases hB : (piece = "Q" ∨ piece = "B")
    · simp only [hR, hB, if_true, if_false]
      exact discoveredLoop_boards _ _ _ _ _ _ _ _ _ h1' h2'
    · simp only [hR, hB, if_false]
      intro t
      have L1 := discoveredLoop_boards "R" startSquare endSquare (decide (piece = "K"))
        ROOK_DIRECTIONS (updateRowPlace row endSquare chessboardBefore chessboardAfter
          keepFree (decide (piece = "K"))) chessboardBefore chessboardAfter keepFree h1' h2'
      set st1 := discoveredLoop "R" startSquare endSquare (decide (piece = "K"))
        (updateRowPlace row endSquare chessboardBefore chessboardAfter keepFree
          (decide (piece = "K"))) chessboardBefore chessboardAfter keepFree
        ROOK_DIRECTIONS with hst1
      have h1b : ∀ sq, sq.onBoard = true → st1.2.1 sq ≠ "" → st1.2.2.2 sq = true := by
        intro sq hs hne
        rw [(L1 sq).2.2]
        exact h1' sq hs (by rwa [(L1 sq).1] at hne)
      have h2b : ∀ sq, sq.onBoard = true → st1.2.2.1 sq ≠ "" → st1.2.2.2 sq = true := by
        intro sq hs hne
        rw [(L1 sq).2.2]
        exact h2' sq hs (by rwa [(L1 sq).2.1] at hne)
      have L2 := discoveredLoop_boards "B" startSquare endSquare (decide (piece = "K"))
        BISHOP_DIRECTIONS st1.1 st1.2.1 st1.2.2.1 st1.2.2.2 h1b h2b t
      exact ⟨L2.1.trans (L1 t).1, L2.2.1.trans (L1 t).2.1, L2.2.2.trans (L1 t).2.2⟩

/-- C10 witness: on a concrete call the three boards come back unchanged. -/
theorem updateMoveGroupCapture_state_restored_witness :
    ((∀ sq ∈ SQUARES, (Board.init "") sq ≠ "" → (Board.init false) sq = true) ∧
      (∀ sq ∈ SQUARES, (Board.init "") sq ≠ "" → (Board.init false) sq = true)) ∧
      ∀ t,
        (updateMoveGroupCapture ⟨some (Board.init ""), some (Board.init ""),
          some (Board.init "")⟩ "P" ⟨1, 0⟩ ⟨1, 1⟩ (Board.init "") (Board.init "")
          (Board.init false)).2.1 t = (Board.init "") t ∧
        (updateMoveGroupCapture ⟨some (Board.init ""), some (Board.init ""),
          some (Board.init "")⟩ "P" ⟨1, 0⟩ ⟨1, 1⟩ (Board.init "") (Board.init "")
          (Board.init false)).2.2.1 t = (Board.init "") t ∧
        (updateMoveGroupCapture ⟨some (Board.init ""), some (Board.init ""),
          some (Board.init "")⟩ "P" ⟨1, 0⟩ ⟨1, 1⟩ (Board.init "") (Board.init "")
          (Board.init false)).2.2.2 t = (Board.init false) t := by
  constructor
  · constructor
    · decide
    · decide
  · exact updateMoveGroupCapture_state_restored _ "P" ⟨1, 0⟩ ⟨1, 1⟩ _ _ _
      (by decide) (by decide)

/-- C1: whenever `placeKingsCheck` returns a board, the square on which it
placed the black king is unreserved, unattacked in the pre-move attack field,
attacked in the post-move attack field, and not a checkmate square of the
post-move attack field (an escape square remains). -/
theorem placeKingsCheck_blackKing_spec (endSquare : Square)
    (chessboardBefore chessboardAfter : Board String) (keepFree : Board Bool)
    (hasWhiteKing : Bool)
    (hs : (placeKingsCheck endSquare chessboardBefore chessboardAfter keepFree
      hasWhiteKing).isSome = true) :
    ∃ sq : Square,
      ((placeKingsCheck endSquare chessboardBefore chessboardAfter keepFree
        hasWhiteKing).getD (Board.init "")) sq = "k" ∧
      keepFree sq = false ∧
      getAttackedSquares chessboardBefore sq = none ∧
      (getAttackedSquares chessboardAfter sq).isSome = true ∧
      isCheckmate sq (getAttackedSquares chessboardAfter) = false := by
  simp only [placeKingsCheck] at hs ⊢
  cases hfind : SQUARES.find? (fun square =>
      !keepFree square &&
        !((getAttackedSquares chessboardBefore) square).isSome &&
        ((getAttackedSquares chessboardAfter) square).isSome &&
        !(hasWhiteKing && square.isAdjacent endSquare 1) &&
        !isCheckmate square (getAttackedSquares chessboardAfter)) with
  | none =>
    rw [hfind] at hs
    cases hs
  | some sq =>
    rw [hfind] at hs
    have hpred := List.find?_some hfind
    simp only [Bool.and_eq_true, Bool.not_eq_true'] at hpred
    obtain ⟨⟨⟨⟨hkf, hbefore⟩, hafter⟩, _⟩, hmate⟩ := hpred
    have hbnone : getAttackedSquares chessboardBefore sq = none := by
      cases hb : getAttackedSquares chessboardBefore sq with
      | none => rfl
      | some v => rw [hb] at hbefore; cases hbefore
    refine ⟨sq, ?_, hkf, hbnone, hafter, hmate⟩
    by_cases hwk : hasWhiteKing = true
    · simp only [hwk, if_true, Option.getD_some]
      exact Board.set_same _ _ _
    · have hwkf : hasWhiteKing = false := eq_false_of_ne_true hwk
      simp only [hwkf, if_false] at hs ⊢
      simp only [placeWhiteKing] at hs ⊢
      cases hfind2 : SQUARES.find? (fun square =>
          !keepFree square && !((getAttackedSquares chessboardAfter) square).isSome &&
            !square.isAdjacent sq 2) with
      | none =>
        rw [hfind2] at hs
        cases hs
      | some t =>
        have hpred2 := List.find?_some hfind2
        simp only [Bool.and_eq_true, Bool.not_eq_true'] at hpred2
        have htne : t ≠ sq := by
          intro heq
          rw [heq, hafter] at hpred2
          exact Bool.true_eq_false.mp hpred2.1.2
        show ((chessboardBefore.set sq "k").set t "K") sq = "k"
        rw [Board.set_other _ _ _ _ (Ne.symm htne)]
        exact Board.set_same _ _ _

set_option maxRecDepth 8000 in
/-- C1 witness: a concrete check position (rook on h2, attacking king assumed
on the end square) where `placeKingsCheck` succeeds. -/
theorem placeKingsCheck_blackKing_spec_witness :
    ((placeKingsCheck ⟨7, 7⟩ (Board.init "") ((Board.init "").set ⟨7, 1⟩ "R")
        (Board.init false) true).isSome = true) ∧
      ∃ sq : Square,
        ((placeKingsCheck ⟨7, 7⟩ (Board.init "") ((Board.init "").set ⟨7, 1⟩ "R")
          (Board.init false) true).getD (Board.init "")) sq = "k" ∧
        (Board.init false : Board Bool) sq = false ∧
        getAttackedSquares (Board.init "") sq = none ∧
        (getAttackedSquares ((Board.init "").set ⟨7, 1⟩ "R") sq).isSome = true ∧
        isCheckmate sq (getAttackedSquares ((Board.init "").set ⟨7, 1⟩ "R")) = false :=
  ⟨by decide,
    placeKingsCheck_blackKing_spec ⟨7, 7⟩ (Board.init "") ((Board.init "").set ⟨7, 1⟩ "R")
      (Board.init false) true (by decide)⟩

/-- C3, amended: in the no-check variant with an attacking king already placed
(`hasWhiteKing` true), the black king's square is unattacked before and after
the move and is not adjacent to the end square (Chebyshev distance at most 1);
squares at Chebyshev distance 2 from the end square remain eligible. -/
theorem placeKingsNoCheck_kingMove_spec (endSquare : Square)
    (chessboardBefore chessboardAfter : Board String) (keepFree : Board Bool)
    (hs : (placeKingsNoCheck endSquare chessboardBefore chessboardAfter keepFree
      true).isSome = true) :
    ∃ sq : Square,
      ((placeKingsNoCheck endSquare chessboardBefore chessboardAfter keepFree true).getD
        (Board.init "")) sq = "k" ∧
      getAttackedSquares chessboardBefore sq = none ∧
      getAttackedSquares chessboardAfter sq = none ∧
      sq.isAdjacent endSquare 1 = false := by
  simp only [placeKingsNoCheck] at hs ⊢
  cases hfind : SQUARES.find? (fun square =>
      !keepFree square &&
        !(((getAttackedSquares chessboardBefore) square).isSome ||
          ((getAttackedSquares chessboardAfter) square).isSome) &&
        !((true : Bool) && square.isAdjacent endSquare 1)) with
  | none =>
    rw [hfind] at hs
    cases hs
  | some sq =>
    have hpred := List.find?_some hfind
    simp only [Bool.and_eq_true, Bool.not_eq_true', Bool.or_eq_false_iff,
      Bool.true_and] at hpred
    obtain ⟨⟨_, hbefore, hafter⟩, hadj⟩ := hpred
    have hbnone : getAttackedSquares chessboardBefore sq = none := by
      cases hb : getAttackedSquares chessboardBefore sq with
      | none => rfl
      | some v => rw [hb] at hbefore; cases hbefore
    have hanone : getAttackedSquares chessboardAfter sq = none := by
      cases ha : getAttackedSquares chessboardAfter sq with
      | none => rfl
      | some v => rw [ha] at hafter; cases hafter
    refine ⟨sq, ?_, hbnone, hanone, hadj⟩
    simp only [if_true, Option.getD_some]
    exact Board.set_same _ _ _

set_option maxRecDepth 8000 in
/-- C3 witness: a concrete king-move position (white king moved from b1 to the
end square a1) where the no-check placement succeeds. -/
theorem placeKingsNoCheck_kingMove_spec_witness :
    ((placeKingsNoCheck ⟨0, 0⟩ ((Board.init "").set ⟨1, 0⟩ "K")
        ((Board.init "").set ⟨0, 0⟩ "K")
        (((Board.init false).set ⟨0, 0⟩ true).set ⟨1, 0⟩ true) true).isSome = true) ∧
      ∃ sq : Square,
        ((placeKingsNoCheck ⟨0, 0⟩ ((Board.init "").set ⟨1, 0⟩ "K")
          ((Board.init "").set ⟨0, 0⟩ "K")
          (((Board.init false).set ⟨0, 0⟩ true).set ⟨1, 0⟩ true) true).getD
            (Board.init "")) sq = "k" ∧
        getAttackedSquares ((Board.init "").set ⟨1, 0⟩ "K") sq = none ∧
        getAttackedSquares ((Board.init "").set ⟨0, 0⟩ "K") sq = none ∧
        sq.isAdjacent ⟨0, 0⟩ 1 = false :=
  ⟨by decide,
    placeKingsNoCheck_kingMove_spec ⟨0, 0⟩ ((Board.init "").set ⟨1, 0⟩ "K")
      ((Board.init "").set ⟨0, 0⟩ "K")
      (((Board.init false).set ⟨0, 0⟩ true).set ⟨1, 0⟩ true) (by decide)⟩

set_option maxRecDepth 8000 in
/-- C3, counterexample to the claim as stated: for the king move b1-a1 the
black king is placed on a3, which is within a 2-square box (Chebyshev
distance 2) of the attacking king on the end square a1. -/
theorem placeKingsNoCheck_distance_two_counterexample :
    (Option.map (fun b => b ⟨0, 2⟩)
      (placeKingsNoCheck ⟨0, 0⟩ ((Board.init "").set ⟨1, 0⟩ "K")
        ((Board.init "").set ⟨0, 0⟩ "K")
        (((Board.init false).set ⟨0, 0⟩ true).set ⟨1, 0⟩ true) true)) = some "k" ∧
      Square.isAdjacent ⟨0, 2⟩ ⟨0, 0⟩ 2 = true := by
  constructor
  · decide
  · decide

theorem Square.add_file (s : Square) (o : Offset) : (s.add o).file = s.file + o.file := rfl

theorem Square.add_rank (s : Square) (o : Offset) : (s.add o).rank = s.rank + o.rank := rfl

theorem placeRooks_cons (r : Square) (rest : List Square) (b : Board String) :
    placeRooks (r :: rest) b = placeRooks rest (b.set r "R") := rfl

theorem placeRooks_changes (rs : List Square) :
    ∀ (b : Board String) (t : Square), placeRooks rs b t ≠ b t → t ∈ rs := by
  induction rs with
  | nil => exact fun b t h => absurd rfl h
  | cons r rest ih =>
    intro b t h
    rw [placeRooks_cons] at h
    by_cases hr : t = r
    · exact hr ▸ List.mem_cons_self r rest
    · refine List.mem_cons_of_mem r (ih (b.set r "R") t ?_)
      intro he
      exact h (he.trans (Board.set_other b r t "R" hr))

theorem bishop_offset_props (o : Offset) (ho : o ∈ BISHOP_DIRECTIONS) (sk : Square) :
    (sk.add o).isAdjacent sk 1 = true ∧ (sk.add o).file ≠ sk.file ∧
      (sk.add o).rank ≠ sk.rank := by
  fin_cases ho <;>
    · refine ⟨?_, ?_, ?_⟩ <;>
        simp only [Square.isAdjacent, Square.add_file, Square.add_rank, Bool.and_eq_true,
          decide_eq_true_iff, abs_le] <;>
        omega

theorem rookBase_nodup (sk : Square) :
    ((BISHOP_DIRECTIONS.map (fun o => sk.add o)).filter (fun sq => sq.onBoard)).Nodup := by
  refine List.Nodup.filter _ (List.Nodup.map ?_ (by decide))
  intro o o' h
  exact Square.add_offset_injective sk o o' h

theorem rookBase_mem (sk t : Square)
    (ht : t ∈ (BISHOP_DIRECTIONS.map (fun o => sk.add o)).filter (fun sq => sq.onBoard)) :
    t.onBoard = true ∧ t.isAdjacent sk 1 = true ∧ t.file ≠ sk.file ∧ t.rank ≠ sk.rank := by
  rw [List.mem_filter] at ht
  obtain ⟨hmem, hob⟩ := ht
  rw [List.mem_map] at hmem
  obtain ⟨o, ho, rfl⟩ := hmem
  obtain ⟨h1, h2, h3⟩ := bishop_offset_props o ho sk
  exact ⟨hob, h1, h2, h3⟩

theorem adjacent_mem_KING_JUMPS (t sk : Square) (hadj : t.isAdjacent sk 1 = true)
    (hne : t ≠ sk) : ∃ jump ∈ KING_JUMPS, t = sk.add jump := by
  simp only [Square.isAdjacent, Bool.and_eq_true, decide_eq_true_iff, abs_le] at hadj
  have hcomp : ¬(t.file = sk.file ∧ t.rank = sk.rank) := by
    intro hc
    apply hne
    cases t
    cases sk
    simp only [Square.mk.injEq]
    exact ⟨hc.1, hc.2⟩
  refine ⟨⟨t.file - sk.file, t.rank - sk.rank⟩, ?_, ?_⟩
  · simp only [KING_JUMPS, List.mem_cons, List.not_mem_nil, or_false, Offset.mk.injEq]
    omega
  · cases t
    cases sk
    simp only [Square.add_file, Square.add_rank, Square.mk.injEq, Square.add]
    constructor <;> omega

theorem Square.file_mk (a b : Int) : (Square.mk a b).file = a := rfl

theorem Square.rank_mk (a b : Int) : (Square.mk a b).rank = b := rfl

theorem placeRooksSetK_changes (rs : List Square) (b0 b : Board String) (sk t : Square)
    (h : ((placeRooks rs b0).set sk "k") t ≠ b t) : t = sk ∨ t ∈ rs ∨ b0 t ≠ b t := by
  by_cases h1 : t = sk
  · exact Or.inl h1
  · rw [Board.set_other _ _ _ _ h1] at h
    by_cases h2 : placeRooks rs b0 t = b0 t
    · exact Or.inr (Or.inr (fun he => h (h2.trans he)))
    · exact Or.inr (Or.inl (placeRooks_changes rs b0 t h2))

theorem set_two_changes {α : Type} (b : Board α) (x y t : Square) (v w : α)
    (h : ((b.set x v).set y w) t ≠ b t) : t = y ∨ t = x := by
  by_cases hy : t = y
  · exact Or.inl hy
  · right
    rw [Board.set_other _ _ _ _ hy] at h
    by_cases hx : t = x
    · exact hx
    · exact absurd (Board.set_other b x t v hx) h

theorem mix_onBoard (a b : Square) (ha : a.onBoard = true) (hb : b.onBoard = true) :
    (Square.mk a.file b.rank).onBoard = true := by
  simp only [Square.onBoard, Bool.and_eq_true, decide_eq_true_iff, Square.file_mk,
    Square.rank_mk] at *
  omega

theorem mix_adjacent (sk kfa : Square) (h : kfa.isAdjacent sk 1 = true) :
    (Square.mk sk.file kfa.rank).isAdjacent sk 1 = true ∧
      (Square.mk kfa.file sk.rank).isAdjacent sk 1 = true := by
  simp only [Square.isAdjacent, Bool.and_eq_true, decide_eq_true_iff, abs_le,
    Square.file_mk, Square.rank_mk] at *
  omega

theorem mixSquare_case (sk kfa : Square) (hk : sk.onBoard = true)
    (hmem : kfa ∈ (BISHOP_DIRECTIONS.map (fun o => sk.add o)).filter (fun sq => sq.onBoard)) :
    ((Square.mk sk.file kfa.rank).onBoard = true ∧
      (Square.mk sk.file kfa.rank).isAdjacent sk 1 = true ∧
      Square.mk sk.file kfa.rank ≠ kfa) ∧
    ((Square.mk kfa.file sk.rank).onBoard = true ∧
      (Square.mk kfa.file sk.rank).isAdjacent sk 1 = true ∧
      Square.mk kfa.file sk.rank ≠ kfa) := by
  obtain ⟨hob, hadj, hfile, hrank⟩ := rookBase_mem sk kfa hmem
  obtain ⟨ha1, ha2⟩ := mix_adjacent sk kfa hadj
  refine ⟨⟨mix_onBoard sk kfa hk hob, ha1, ?_⟩, ⟨mix_onBoard kfa sk hob hk, ha2, ?_⟩⟩
  · intro heq
    have := congrArg Square.file heq
    rw [Square.file_mk] at this
    exact hfile this.symm
  · intro heq
    have := congrArg Square.rank heq
    rw [Square.rank_mk] at this
    exact hrank this.symm

theorem boxInBlackKing_changes (sk e : Square) (chessboardBefore chessboardAfter : Board String)
    (attA : Board (Option Square)) (hk : sk.onBoard = true) (b' : Board String)
    (h : boxInBlackKing sk e chessboardBefore chessboardAfter attA = some b') :
    ∀ t, b' t ≠ chessboardBefore t →
      t = sk ∨ (t.onBoard = true ∧ t.isAdjacent sk 1 = true ∧ some t ≠ attA sk) := by
  intro t ht
  cases hkfa : attA sk with
  | none =>
    simp only [boxInBlackKing, hkfa] at h
    split_ifs at h with h1 h2 h3 h4
    · injection h with hb
      rw [← hb] at ht
      rcases placeRooksSetK_changes _ _ _ _ _ ht with h0 | h0 | h0
      · exact Or.inl h0
      · obtain ⟨hob, hadj, _, _⟩ := rookBase_mem sk t h0
        exact Or.inr ⟨hob, hadj, by simp [hkfa]⟩
      · exact absurd rfl h0
    · injection h with hb
      rw [← hb] at ht
      rcases placeRooksSetK_changes _ _ _ _ _ ht with h0 | h0 | h0
      · exact Or.inl h0
      · obtain ⟨hob, hadj, _, _⟩ := rookBase_mem sk t (List.dropLast_subset _ h0)
        exact Or.inr ⟨hob, hadj, by simp [hkfa]⟩
      · exact absurd rfl h0
  | some kfa =>
    have hsome : ∀ u : Square, u ≠ kfa → (some u : Option Square) ≠ some kfa := by
      intro u hu heq
      exact hu (Option.some.injEq u kfa ▸ heq)
    simp only [boxInBlackKing, hkfa] at h
    split_ifs at h with h1 h2 h3 h4 h5 h6 h7 h8
    · -- edge, attacker blocks a corner rook, swapped knight/bishop squares
      injection h with hb
      rw [← hb] at ht
      rcases placeRooksSetK_changes _ _ _ _ _ ht with h0 | h0 | h0
      · exact Or.inl h0
      · rw [List.Nodup.mem_erase_iff (rookBase_nodup sk)] at h0
        obtain ⟨hne, hmem⟩ := h0
        obtain ⟨hob, hadj, _, _⟩ := rookBase_mem sk t hmem
        exact Or.inr ⟨hob, hadj, hsome t hne⟩
      · obtain ⟨⟨hobk, hadjk, hnek⟩, ⟨hobb, hadjb, hneb⟩⟩ := mixSquare_case sk kfa hk h3
        rcases set_two_changes _ _ _ _ _ _ h0 with h0 | h0
        · exact Or.inr (h0 ▸ ⟨hobk, hadjk, hsome _ hnek⟩)
        · exact Or.inr (h0 ▸ ⟨hobb, hadjb, hsome _ hneb⟩)
    · -- edge, attacker blocks a corner rook, unswapped knight/bishop squares
      injection h with hb
      rw [← hb] at ht
      rcases placeRooksSetK_changes _ _ _ _ _ ht with h0 | h0 | h0
      · exact Or.inl h0
      · rw [List.Nodup.mem_erase_iff (rookBase_nodup sk)] at h0
        obtain ⟨hne, hmem⟩ := h0
        obtain ⟨hob, hadj, _, _⟩ := rookBase_mem sk t hmem
        exact Or.inr ⟨hob, hadj, hsome t hne⟩
      · obtain ⟨⟨hobk, hadjk, hnek⟩, ⟨hobb, hadjb, hneb⟩⟩ := mixSquare_case sk kfa hk h3
        rcases set_two_changes _ _ _ _ _ _ h0 with h0 | h0
        · exact Or.inr (h0 ▸ ⟨hobb, hadjb, hsome _ hneb⟩)
        · exact Or.inr (h0 ▸ ⟨hobk, hadjk, hsome _ hnek⟩)
    · -- edge, attacker does not block a rook
      injection h with hb
      rw [← hb] at ht
      rcases placeRooksSetK_changes _ _ _ _ _ ht with h0 | h0 | h0
      · exact Or.inl h0
      · obtain ⟨hob, hadj, _, _⟩ := rookBase_mem sk t h0
        exact Or.inr ⟨hob, hadj, hsome t (fun heq => h3 (heq ▸ h0))⟩
      · exact absurd rfl h0
    · -- middle, attacker blocks a corner rook
      injection h with hb
      rw [← hb] at ht
      rcases placeRooksSetK_changes _ _ _ _ _ ht with h0 | h0 | h0
      · exact Or.inl h0
      · rw [List.Nodup.mem_erase_iff (rookBase_nodup sk)] at h0
        obtain ⟨hne, hmem⟩ := h0
        obtain ⟨hob, hadj, _, _⟩ := rookBase_mem sk t hmem
        exact Or.inr ⟨hob, hadj, hsome t hne⟩
      · exact absurd rfl h0
    · -- middle, arbitrary rook dropped
      injection h with hb
      rw [← hb] at ht
      rcases placeRooksSetK_changes _ _ _ _ _ ht with h0 | h0 | h0
      · exact Or.inl h0
      · obtain ⟨hob, hadj, _, _⟩ := rookBase_mem sk t (List.dropLast_subset _ h0)
        exact Or.inr ⟨hob, hadj, hsome t (fun heq => h8 (heq ▸ List.dropLast_subset _ h0))⟩
      · exact absurd rfl h0

theorem placeKingsCheckmateLoop_frame (endSquare : Square)
    (chessboardBefore chessboardAfter : Board String) (keepFree : Board Bool) (hwk : Bool)
    (attB attA : Board (Option Square)) :
    ∀ (squares : List Square) (b' : Board String) (sk : Square),
      (∀ sq ∈ squares, sq.onBoard = true) →
      placeKingsCheckmateLoop endSquare chessboardBefore chessboardAfter keepFree hwk attB
        attA squares = some (b', sk) →
      ∀ t, b' t ≠ chessboardBefore t → keepFree t = false ∧ t.onBoard = true := by
  intro squares
  induction squares with
  | nil =>
    intro b' sk _ h
    cases h
  | cons sq rest ih =>
    intro b' sk hob h t ht
    have hsqob : sq.onBoard = true := hob sq (List.mem_cons_self _ _)
    have hrob : ∀ u ∈ rest, u.onBoard = true := fun u hu => hob u (List.mem_cons_of_mem _ hu)
    by_cases c1 : keepFree sq = true
    · simp only [placeKingsCheckmateLoop, c1, if_true] at h
      exact ih b' sk hrob h t ht
    · by_cases c2 : (attB sq).isSome = true
      · simp only [placeKingsCheckmateLoop, c1, c2, if_true, if_false] at h
        exact ih b' sk hrob h t ht
      · by_cases c3 : (attA sq).isSome = true
        · by_cases c4 : (hwk && sq.isAdjacent endSquare 1) = true
          · simp only [placeKingsCheckmateLoop, c1, c2, c3, c4, Bool.not_true, if_true,
              if_false, Bool.false_eq_true] at h
            exact ih b' sk hrob h t ht
          · by_cases c5 : isCheckmate sq attA = true
            · simp only [placeKingsCheckmateLoop, c1, c2, c3, c4, c5, Bool.not_true, if_true,
                if_false, Bool.false_eq_true] at h
              rw [Option.some.injEq, Prod.mk.injEq] at h
              obtain ⟨hb, _⟩ := h
              rw [← hb] at ht
              by_cases hts : t = sq
              · subst hts
                exact ⟨eq_false_of_ne_true c1, hsqob⟩
              · exact absurd (Board.set_other _ _ _ _ hts) ht
            · by_cases c6 : adjacentAllPlacable keepFree attA sq = true
              · simp only [placeKingsCheckmateLoop, c1, c2, c3, c4, c5, c6, Bool.not_true,
                  if_true, if_false, Bool.false_eq_true] at h
                cases hbox : boxInBlackKing sq endSquare chessboardBefore chessboardAfter
                    attA with
                | none =>
                  rw [hbox] at h
                  exact ih b' sk hrob h t ht
                | some board =>
                  rw [hbox, Option.some.injEq, Prod.mk.injEq] at h
                  obtain ⟨hb, _⟩ := h
                  rw [← hb] at ht
                  rcases boxInBlackKing_changes sq endSquare chessboardBefore chessboardAfter
                      attA hsqob board hbox t ht with rfl | ⟨hobT, hadjT, hneT⟩
                  · exact ⟨eq_false_of_ne_true c1, hsqob⟩
                  · by_cases hts : t = sq
                    · subst hts
                      exact ⟨eq_false_of_ne_true c1, hsqob⟩
                    · obtain ⟨jump, hj, rfl⟩ := adjacent_mem_KING_JUMPS t sq hadjT hts
                      simp only [adjacentAllPlacable, List.all_eq_true] at c6
                      have hone := c6 jump hj
                      simp only [Bool.or_eq_true, Bool.not_eq_true',
                        decide_eq_true_iff] at hone
                      rcases hone with (hone | hone) | hone
                      · rw [hobT] at hone
                        cases hone
                      · exact absurd hone hneT
                      · exact ⟨hone, hobT⟩
              · simp only [placeKingsCheckmateLoop, c1, c2, c3, c4, c5, c6, Bool.not_true,
                  if_true, if_false, Bool.false_eq_true] at h
                exact ih b' sk hrob h t ht
        · simp only [placeKingsCheckmateLoop, c1, c2, c3, Bool.not_true, Bool.not_false,
            if_true, if_false, Bool.false_eq_true] at h
          exact ih b' sk hrob h t ht

/-- C2: when every occupied square of the pre-move board is reserved
(`keepFree`), a successful `placeKingsCheckmate` — including its box-in
construction — changes only squares that were unreserved and empty at entry:
no boxing piece (corner rook, bishop, knight), black king or white king is
ever written to a reserved or occupied square, so every square holding a piece
of the requested move keeps its piece. -/
theorem placeKingsCheckmate_reserved_frame (endSquare : Square)
    (chessboardBefore chessboardAfter : Board String) (keepFree : Board Bool) (hwk : Bool)
    (hocc : ∀ sq ∈ SQUARES, chessboardBefore sq ≠ "" → keepFree sq = true)
    (hs : (placeKingsCheckmate endSquare chessboardBefore chessboardAfter keepFree
      hwk).isSome = true) :
    ∀ t, ((placeKingsCheckmate endSquare chessboardBefore chessboardAfter keepFree hwk).getD
        (Board.init "")) t ≠ chessboardBefore t →
      keepFree t = false ∧ chessboardBefore t = "" := by
  simp only [placeKingsCheckmate] at hs ⊢
  cases hloop : placeKingsCheckmateLoop endSquare chessboardBefore chessboardAfter keepFree
      hwk (getAttackedSquares chessboardBefore) (getAttackedSquares chessboardAfter)
      SQUARES with
  | none =>
    rw [hloop] at hs
    cases hs
  | some pair =>
    obtain ⟨board, sk⟩ := pair
    rw [hloop] at hs
    have hframe := placeKingsCheckmateLoop_frame endSquare chessboardBefore chessboardAfter
      keepFree hwk (getAttackedSquares chessboardBefore) (getAttackedSquares chessboardAfter)
      SQUARES board sk (fun sq hsq => (mem_SQUARES_iff sq).mp hsq) hloop
    intro t ht
    by_cases hwkb : hwk = true
    · simp only [hwkb, if_true, Option.getD_some] at ht
      obtain ⟨hkf, hob⟩ := hframe t ht
      refine ⟨hkf, ?_⟩
      by_contra hne
      rw [hocc t ((mem_SQUARES_iff t).mpr hob) hne] at hkf
      cases hkf
    · have hwkf : hwk = false := eq_false_of_ne_true hwkb
      simp only [hwkf, if_false] at ht hs
      simp only [placeWhiteKing] at ht hs
      cases hfind2 : SQUARES.find? (fun square =>
          !keepFree square && !((getAttackedSquares chessboardAfter) square).isSome &&
            !square.isAdjacent sk 2) with
      | none =>
        rw [hfind2] at hs
        cases hs
      | some u =>
        rw [hfind2] at ht
        simp only [Option.map_some', Option.getD_some, Bool.false_eq_true, if_false] at ht
        have hpred2 := List.find?_some hfind2
        simp only [Bool.and_eq_true, Bool.not_eq_true'] at hpred2
        have humem : u ∈ SQUARES := List.mem_of_find?_eq_some hfind2
        by_cases htu : t = u
        · subst htu
          refine ⟨hpred2.1.1, ?_⟩
          by_contra hne
          rw [hocc t humem hne] at hpred2
          exact Bool.true_eq_false.mp hpred2.1.1
        · rw [Board.set_other _ _ _ _ htu] at ht
          obtain ⟨hkf, hob⟩ := hframe t ht
          refine ⟨hkf, ?_⟩
          by_contra hne
          rw [hocc t ((mem_SQUARES_iff t).mpr hob) hne] at hkf
          cases hkf

set_option maxRecDepth 8000 in
/-- C2 witness: a concrete edge box-in (rook on h2 giving check along rank 2,
black king boxed on a2) on an empty pre-move board. -/
theorem placeKingsCheckmate_reserved_frame_witness :
    ((∀ sq ∈ SQUARES, (Board.init "") sq ≠ "" → (Board.init false) sq = true) ∧
      (placeKingsCheckmate ⟨7, 7⟩ (Board.init "") ((Board.init "").set ⟨7, 1⟩ "R")
        (Board.init false) true).isSome = true) ∧
      ∀ t, ((placeKingsCheckmate ⟨7, 7⟩ (Board.init "") ((Board.init "").set ⟨7, 1⟩ "R")
          (Board.init false) true).getD (Board.init "")) t ≠ (Board.init "") t →
        (Board.init false : Board Bool) t = false ∧ (Board.init "" : Board String) t = "" :=
  ⟨⟨by decide, by decide⟩,
    placeKingsCheckmate_reserved_frame ⟨7, 7⟩ (Board.init "") ((Board.init "").set ⟨7, 1⟩ "R")
      (Board.init false) true (by decide) (by decide)⟩

theorem splitOnChar_ne_nil (sep : Char) (cs : List Char) : splitOnChar sep cs ≠ [] := by
  cases cs with
  | nil => simp [splitOnChar]
  | cons c rest =>
    by_cases h : c = sep
    · simp [splitOnChar, h]
    · simp only [splitOnChar, h, if_false]
      cases hsplit : splitOnChar sep rest with
      | nil => simp
      | cons a b => simp

theorem splitOnChar_all_ne (sep : Char) (cs : List Char) (h : ∀ c ∈ cs, c ≠ sep) :
    splitOnChar sep cs = [cs] := by
  induction cs with
  | nil => rfl
  | cons c rest ih =>
    have hc : c ≠ sep := h c (List.mem_cons_self _ _)
    have hr := ih (fun d hd => h d (List.mem_cons_of_mem _ hd))
    simp only [splitOnChar, hc, if_false, hr]

theorem joinSep_splitOnChar (sep : Char) : ∀ cs : List Char,
    joinSep sep (splitOnChar sep cs) = cs := by
  intro cs
  induction cs with
  | nil => rfl
  | cons c rest ih =>
    by_cases h : c = sep
    · subst h
      simp only [splitOnChar, if_true]
      cases hr : splitOnChar c rest with
      | nil => exact absurd hr (splitOnChar_ne_nil c rest)
      | cons a t =>
        rw [hr] at ih
        show joinSep c ([] :: a :: t) = c :: rest
        rw [joinSep]
        exact congrArg (List.cons c) ih
    · simp only [splitOnChar, h, if_false]
      cases hr : splitOnChar sep rest with
      | nil => exact absurd hr (splitOnChar_ne_nil sep rest)
      | cons a t =>
        rw [hr] at ih
        cases t with
        | nil => exact congrArg (List.cons c) ih
        | cons b t2 => exact congrArg (List.cons c) ih

theorem isPieceChar_not_digit (c : Char) (h : isPieceChar c = true) : c.isDigit = false := by
  simp only [isPieceChar, Bool.or_eq_true, decide_eq_true_iff] at h
  rcases h with ((((((((((h | h) | h) | h) | h) | h) | h) | h) | h) | h) | h) | h <;>
    subst h <;> decide

theorem decodeCells_cons (c : Char) (rest : List Char) :
    decodeCells (c :: rest) =
      (if c.isDigit then List.replicate (c.toNat - 48) "" else [c.toString]) ++
        decodeCells rest := rfl

theorem validRankAux_length : ∀ (cs : List Char) (prev : Bool) (n : Nat),
    validRankAux cs prev n = true → n + (decodeCells cs).length = 8 := by
  intro cs
  induction cs with
  | nil =>
    intro prev n h
    simp only [validRankAux, beq_iff_eq] at h
    simp [decodeCells, h]
  | cons c rest ih =>
    intro prev n h
    by_cases hp : isPieceChar c = true
    · simp only [validRankAux, hp, if_true] at h
      have hd := isPieceChar_not_digit c hp
      have hlen := ih false (n + 1) h
      rw [decodeCells_cons, hd]
      simp only [Bool.false_eq_true, if_false, List.length_append, List.length_cons,
        List.length_nil]
      omega
    · by_cases hd : (c.isDigit && decide (1 ≤ c.toNat - 48) && decide (c.toNat - 48 ≤ 8) &&
          !prev) = true
      · simp only [validRankAux, hp, hd, if_true, if_false, Bool.false_eq_true] at h
        have hdig : c.isDigit = true := by
          simp only [Bool.and_eq_true] at hd
          exact hd.1.1.1
        have hlen := ih true (n + (c.toNat - 48)) h
        rw [decodeCells_cons, hdig]
        simp only [if_true, List.length_append, List.length_replicate]
        omega
      · simp only [validRankAux, hp, hd, if_false, Bool.false_eq_true] at h

theorem getD_replicate_empty : ∀ (d j : Nat), (List.replicate d ("" : String)).getD j "" = "" := by
  intro d
  induction d with
  | zero => intro j; simp [List.getD]
  | succ k ih =>
    intro j
    cases j with
    | zero => rfl
    | succ m => exact ih m

theorem fenRankLoop_spec : ∀ (cs : List Char) (prev : Bool) (n : Nat) (b : Board String)
    (rank : Int),
    validRankAux cs prev n = true →
    (∀ f : Int, (n : Int) ≤ f → b ⟨f, rank⟩ = "") →
    ∃ b', fenRankLoop rank cs (n : Int) b = some b' ∧
      (∀ s : Square, s.rank ≠ rank → b' s = b s) ∧
      (∀ f : Int, f < (n : Int) → b' ⟨f, rank⟩ = b ⟨f, rank⟩) ∧
      (∀ j : Nat, b' ⟨(n : Int) + (j : Int), rank⟩ = (decodeCells cs).getD j "") := by
  intro cs
  induction cs with
  | nil =>
    intro prev n b rank hv hb
    refine ⟨b, rfl, fun s _ => rfl, fun f _ => rfl, ?_⟩
    intro j
    rw [hb ((n : Int) + (j : Int)) (by omega)]
    simp [decodeCells]
  | cons c rest ih =>
    intro prev n b rank hv hb
    by_cases hp : isPieceChar c = true
    · have hd := isPieceChar_not_digit c hp
      simp only [validRankAux, hp, if_true] at hv
      have hlen := validRankAux_length rest false (n + 1) hv
      have hle7 : (n : Int) ≤ 7 := by omega
      have hb1 : ∀ f : Int, ((n + 1 : Nat) : Int) ≤ f →
          (b.set ⟨(n : Int), rank⟩ c.toString) ⟨f, rank⟩ = "" := by
        intro f hf
        push_cast at hf
        rw [Board.set_other]
        · exact hb f (by omega)
        · intro he
          have hfe := congrArg Square.file he
          simp only [Square.file_mk] at hfe
          omega
      obtain ⟨b', he, hi, hii, hiii⟩ :=
        ih false (n + 1) (b.set ⟨(n : Int), rank⟩ c.toString) rank hv hb1
      refine ⟨b', ?_, ?_, ?_, ?_⟩
      · simp only [fenRankLoop, hd, Bool.false_eq_true, if_false, hle7, if_true]
        rw [show (n : Int) + 1 = ((n + 1 : Nat) : Int) by push_cast; ring]
        exact he
      · intro s hs
        rw [hi s hs, Board.set_other]
        intro hcon
        have := congrArg Square.rank hcon
        simp only [Square.rank_mk] at this
        exact hs this
      · intro f hf
        rw [hii f (by push_cast; omega), Board.set_other]
        intro hcon
        have hfe := congrArg Square.file hcon
        simp only [Square.file_mk] at hfe
        omega
      · intro j
        rw [decodeCells_cons, hd]
        simp only [Bool.false_eq_true, if_false, List.singleton_append]
        cases j with
        | zero =>
          rw [show (n : Int) + ((0 : Nat) : Int) = (n : Int) by push_cast; ring]
          rw [hii (n : Int) (by push_cast; omega)]
          rw [List.getD_cons_zero]
          exact Board.set_same _ _ _
        | succ k =>
          rw [show (n : Int) + ((k + 1 : Nat) : Int) = ((n + 1 : Nat) : Int) + (k : Int) by
            push_cast; ring]
          rw [hiii k, List.getD_cons_succ]
    · by_cases hdg : (c.isDigit && decide (1 ≤ c.toNat - 48) && decide (c.toNat - 48 ≤ 8) &&
          !prev) = true
      · have hdig : c.isDigit = true := by
          simp only [Bool.and_eq_true] at hdg
          exact hdg.1.1.1
        have h1d : 1 ≤ c.toNat - 48 := by
          simp only [Bool.and_eq_true, decide_eq_true_iff] at hdg
          exact hdg.1.1.2
        have hge49 : 49 ≤ c.toNat := by omega
        simp only [validRankAux, hp, hdg, if_true, if_false, Bool.false_eq_true] at hv
        have hb1 : ∀ f : Int, ((n + (c.toNat - 48) : Nat) : Int) ≤ f → b ⟨f, rank⟩ = "" := by
          intro f hf
          exact hb f (by omega)
        obtain ⟨b', he, hi, hii, hiii⟩ := ih true (n + (c.toNat - 48)) b rank hv hb1
        refine ⟨b', ?_, hi, ?_, ?_⟩
        · simp only [fenRankLoop, hdig, if_true]
          rw [show (n : Int) + ((c.toNat : Int) - 48) = ((n + (c.toNat - 48) : Nat) : Int) by
            omega]
          exact he
        · intro f hf
          exact hii f (by omega)
        · intro j
          rw [decodeCells_cons, hdig]
          simp only [if_true]
          by_cases hj : j < c.toNat - 48
          · rw [List.getD_append _ _ _ _ (by simpa using hj)]
            rw [getD_replicate_empty]
            have hlt : (n : Int) + (j : Int) < ((n + (c.toNat - 48) : Nat) : Int) := by omega
            rw [hii ((n : Int) + (j : Int)) hlt]
            exact hb ((n : Int) + (j : Int)) (by omega)
          · have hge : c.toNat - 48 ≤ j := by omega
            rw [List.getD_append_right _ _ _ _ (by simpa using hge)]
            simp only [List.length_replicate]
            rw [show (n : Int) + (j : Int) =
                ((n + (c.toNat - 48) : Nat) : Int) + ((j - (c.toNat - 48) : Nat) : Int) by
              omega]
            exact hiii (j - (c.toNat - 48))
      · simp only [validRankAux, hp, hdg, if_false, Bool.false_eq_true] at hv

theorem Char.data_toString (c : Char) : (c.toString).data = [c] := rfl

theorem Char.toString_ne_empty (c : Char) : c.toString ≠ "" := by
  intro h
  have hd := congrArg String.data h
  rw [Char.data_toString] at hd
  cases hd

theorem digitChar48_roundtrip (c : Char) (h1 : 49 ≤ c.toNat) :
    digitChar48 (c.toNat - 48) = c := by
  unfold digitChar48
  rw [show 48 + (c.toNat - 48) = c.toNat by omega]
  exact Char.ofNat_toNat c

theorem encodeCellsGo_replicate : ∀ (k : Nat) (xs : List String) (e : Nat),
    encodeCellsGo (List.replicate k "" ++ xs) e = encodeCellsGo xs (e + k) := by
  intro k
  induction k with
  | zero => intro xs e; rfl
  | succ m ih =>
    intro xs e
    show encodeCellsGo ("" :: (List.replicate m "" ++ xs)) e = encodeCellsGo xs (e + (m + 1))
    rw [show e + (m + 1) = (e + 1) + m by omega]
    rw [← ih xs (e + 1)]
    simp [encodeCellsGo]

theorem encode_decode : ∀ (cs : List Char) (n : Nat),
    (validRankAux cs false n = true → encodeCellsGo (decodeCells cs) 0 = cs) ∧
    (validRankAux cs true n = true → ∀ d : Nat, 1 ≤ d →
      encodeCellsGo (decodeCells cs) d = digitChar48 d :: cs) := by
  intro cs
  induction cs with
  | nil =>
    intro n
    constructor
    · intro _
      rfl
    · intro _ d hd
      show (if d = 0 then [] else [digitChar48 d]) = digitChar48 d :: []
      rw [if_neg (by omega)]
  | cons c rest ih =>
    intro n
    by_cases hp : isPieceChar c = true
    · have hdig := isPieceChar_not_digit c hp
      have hne := Char.toString_ne_empty c
      constructor
      · intro hv
        simp only [validRankAux, hp, if_true] at hv
        rw [decodeCells_cons, hdig]
        simp only [Bool.false_eq_true, if_false, List.singleton_append]
        show (if (0 : Nat) = 0 then [] else [digitChar48 0]) ++ c.toString.data ++
          encodeCellsGo (decodeCells rest) 0 = c :: rest
        rw [if_pos rfl, (ih (n + 1)).1 hv, Char.data_toString]
        rfl
      · intro hv d hd
        simp only [validRankAux, hp, if_true] at hv
        rw [decodeCells_cons, hdig]
        simp only [Bool.false_eq_true, if_false, List.singleton_append]
        show (if d = 0 then [] else [digitChar48 d]) ++ c.toString.data ++
          encodeCellsGo (decodeCells rest) 0 = digitChar48 d :: c :: rest
        rw [if_neg (by omega), (ih (n + 1)).1 hv, Char.data_toString]
        rfl
    · by_cases hdg : (c.isDigit && decide (1 ≤ c.toNat - 48) && decide (c.toNat - 48 ≤ 8) &&
          !(false : Bool)) = true
      · have hdig : c.isDigit = true := by
          simp only [Bool.and_eq_true] at hdg
          exact hdg.1.1.1
        have h1d : 1 ≤ c.toNat - 48 := by
          simp only [Bool.and_eq_true, decide_eq_true_iff] at hdg
          exact hdg.1.1.2
        constructor
        · intro hv
          simp only [validRankAux, hp, hdg, if_true, if_false, Bool.false_eq_true] at hv
          rw [decodeCells_cons, hdig]
          simp only [if_true]
          rw [encodeCellsGo_replicate]
          rw [show 0 + (c.toNat - 48) = c.toNat - 48 by omega]
          rw [(ih (n + (c.toNat - 48))).2 hv (c.toNat - 48) h1d]
          rw [digitChar48_roundtrip c (by omega)]
        · intro hv d hd
          simp only [validRankAux, hp, Bool.not_true, Bool.and_false, if_false,
            Bool.false_eq_true] at hv
      · constructor
        · intro hv
          simp only [validRankAux, hp, hdg, if_false, Bool.false_eq_true] at hv
        · intro hv d hd
          simp only [validRankAux, hp, if_false, Bool.false_eq_true] at hv
          by_cases hdg2 : (c.isDigit && decide (1 ≤ c.toNat - 48) &&
              decide (c.toNat - 48 ≤ 8) && !(true : Bool)) = true
          · simp only [Bool.not_true, Bool.and_false] at hdg2
            cases hdg2
          · rw [if_neg (fun hcon => hdg2 hcon)] at hv
            cases hv

theorem encodeRankGo_eq_cells : ∀ (files : List Int) (b : Board String) (rank : Int)
    (e : Nat), encodeRankGo b rank false files e =
      encodeCellsGo (files.map (fun f => b ⟨f, rank⟩)) e := by
  intro files
  induction files with
  | nil => intro b rank e; rfl
  | cons f rest ih =>
    intro b rank e
    by_cases hc : b ⟨f, rank⟩ = ""
    · simp only [encodeRankGo, List.map_cons, encodeCellsGo, hc, if_true]
      exact ih b rank (e + 1)
    · simp only [encodeRankGo, List.map_cons, encodeCellsGo, hc, if_false,
        Bool.false_eq_true]
      rw [ih b rank 0]

theorem map_getD_eight (l : List String) (h : l.length = 8) :
    intRange8.map (fun f => l.getD f.toNat "") = l := by
  rcases l with _|⟨a0,_|⟨a1,_|⟨a2,_|⟨a3,_|⟨a4,_|⟨a5,_|⟨a6,_|⟨a7,rest⟩⟩⟩⟩⟩⟩⟩⟩ <;>
    simp only [List.length_cons, List.length_nil] at h
  · omega
  · omega
  · omega
  · omega
  · omega
  · omega
  · omega
  · omega
  · have h0 : rest.length = 0 := by omega
    rw [List.length_eq_zero] at h0
    subst h0
    rfl

theorem fenRanksLoop_spec : ∀ (rs : List (List Char)) (rank : Int) (b : Board String),
    (∀ l ∈ rs, validRank l = true) →
    (∀ s : Square, s.rank ≤ rank → b s = "") →
    ∃ b', fenRanksLoop rs rank b = some b' ∧
      (∀ s : Square, rank < s.rank → b' s = b s) ∧
      (∀ i : Nat, i < rs.length → ∀ j : Nat,
        b' ⟨(j : Int), rank - (i : Int)⟩ = (decodeCells (rs.getD i [])).getD j "") := by
  intro rs
  induction rs with
  | nil =>
    intro rank b _ _
    exact ⟨b, rfl, fun s _ => rfl, fun i hi => absurd hi (by simp)⟩
  | cons l rest ih =>
    intro rank b hv hb
    obtain ⟨b1, he1, hi1, _, hiii1⟩ :=
      fenRankLoop_spec l false 0 b rank (hv l (List.mem_cons_self _ _))
        (fun f _ => hb ⟨f, rank⟩ (le_refl rank))
    have hb1 : ∀ s : Square, s.rank ≤ rank - 1 → b1 s = "" := by
      intro s hs
      rw [hi1 s (by omega)]
      exact hb s (by omega)
    obtain ⟨b', he', hi', hiii'⟩ :=
      ih (rank - 1) b1 (fun u hu => hv u (List.mem_cons_of_mem _ hu)) hb1
    refine ⟨b', ?_, ?_, ?_⟩
    · simp only [fenRanksLoop]
      rw [Nat.cast_zero] at he1
      rw [he1]
      exact he'
    · intro s hs
      rw [hi' s (by omega), hi1 s (by omega)]
    · intro i hi j
      cases i with
      | zero =>
        have hz : rank - ((0 : Nat) : Int) = rank := by push_cast; ring
        rw [hz]
        rw [hi' ⟨(j : Int), rank⟩ (by simp only [Square.rank_mk]; omega)]
        have hone := hiii1 j
        rw [show ((0 : Nat) : Int) + (j : Int) = (j : Int) by push_cast; ring] at hone
        simp only [List.getD_cons_zero]
        exact hone
      | succ k =>
        have hk : rank - ((k + 1 : Nat) : Int) = (rank - 1) - (k : Int) := by push_cast; ring
        rw [hk]
        rw [List.length_cons] at hi
        simp only [List.getD_cons_succ]
        exact hiii' k (by omega) j

theorem validRankAux_chars : ∀ (cs : List Char) (prev : Bool) (n : Nat),
    validRankAux cs prev n = true →
    ∀ c ∈ cs, isPieceChar c = true ∨ c.isDigit = true := by
  intro cs
  induction cs with
  | nil => intro prev n _ c hc; cases hc
  | cons c0 rest ih =>
    intro prev n hv c hc
    by_cases hp : isPieceChar c0 = true
    · simp only [validRankAux, hp, if_true] at hv
      rcases List.mem_cons.mp hc with rfl | hc
      · exact Or.inl hp
      · exact ih false (n + 1) hv c hc
    · by_cases hdg : (c0.isDigit && decide (1 ≤ c0.toNat - 48) && decide (c0.toNat - 48 ≤ 8) &&
          !prev) = true
      · have hdig : c0.isDigit = true := by
          simp only [Bool.and_eq_true] at hdg
          exact hdg.1.1.1
        simp only [validRankAux, hp, hdg, if_true, if_false, Bool.false_eq_true] at hv
        rcases List.mem_cons.mp hc with rfl | hc
        · exact Or.inr hdig
        · exact ih true (n + (c0.toNat - 48)) hv c hc
      · simp only [validRankAux, hp, hdg, if_false, Bool.false_eq_true] at hv

theorem isPieceChar_ne_blank (c : Char) (h : isPieceChar c = true) : c ≠ ' ' := by
  intro he
  subst he
  cases h

theorem isDigit_ne_blank (c : Char) (h : c.isDigit = true) : c ≠ ' ' := by
  intro he
  subst he
  cases h

theorem splitOnChar_chars (sep : Char) : ∀ (cs : List Char) (c : Char), c ∈ cs →
    c = sep ∨ ∃ p ∈ splitOnChar sep cs, c ∈ p := by
  intro cs
  induction cs with
  | nil => intro c hc; cases hc
  | cons c0 rest ih =>
    intro c hc
    by_cases h0 : c0 = sep
    · rcases List.mem_cons.mp hc with rfl | hc
      · exact Or.inl h0
      · rcases ih c hc with h | ⟨p, hp, hcp⟩
        · exact Or.inl h
        · refine Or.inr ⟨p, ?_, hcp⟩
          simp only [splitOnChar, h0, if_true]
          exact List.mem_cons_of_mem _ hp
    · cases hr : splitOnChar sep rest with
      | nil => exact absurd hr (splitOnChar_ne_nil sep rest)
      | cons a t =>
        rcases List.mem_cons.mp hc with rfl | hc
        · refine Or.inr ⟨c :: a, ?_, List.mem_cons_self _ _⟩
          simp only [splitOnChar, h0, if_false, hr]
          exact List.mem_cons_self _ _
        · rcases ih c hc with h | ⟨p, hp, hcp⟩
          · exact Or.inl h
          · rw [hr] at hp
            rcases List.mem_cons.mp hp with rfl | hp
            · refine Or.inr ⟨c0 :: p, ?_, List.mem_cons_of_mem _ hcp⟩
              simp only [splitOnChar, h0, if_false, hr]
              exact List.mem_cons_self _ _
            · refine Or.inr ⟨p, ?_, hcp⟩
              simp only [splitOnChar, h0, if_false, hr]
              exact List.mem_cons_of_mem _ hp

theorem splitOnChar_append_sep (sep : Char) : ∀ (x r : List Char), (∀ c ∈ x, c ≠ sep) →
    splitOnChar sep (x ++ sep :: r) = x :: splitOnChar sep r := by
  intro x
  induction x with
  | nil =>
    intro r _
    simp [splitOnChar]
  | cons c x' ih =>
    intro r hne
    have hc : c ≠ sep := hne c (List.mem_cons_self _ _)
    have hr := ih r (fun d hd => hne d (List.mem_cons_of_mem _ hd))
    show splitOnChar sep (c :: (x' ++ sep :: r)) = (c :: x') :: splitOnChar sep r
    simp only [splitOnChar, hc, if_false, hr]

theorem list_length_eight {α : Type} (l : List α) (h : l.length = 8) :
    ∃ e0 e1 e2 e3 e4 e5 e6 e7, l = [e0, e1, e2, e3, e4, e5, e6, e7] := by
  rcases l with _|⟨e0,_|⟨e1,_|⟨e2,_|⟨e3,_|⟨e4,_|⟨e5,_|⟨e6,_|⟨e7,rest⟩⟩⟩⟩⟩⟩⟩⟩ <;>
    simp only [List.length_cons, List.length_nil] at h
  · omega
  · omega
  · omega
  · omega
  · omega
  · omega
  · omega
  · omega
  · have h0 : rest.length = 0 := by omega
    rw [List.length_eq_zero] at h0
    subst h0
    exact ⟨e0, e1, e2, e3, e4, e5, e6, e7, rfl⟩

/-- C7: parsing a syntactically valid single-board-field position string with
`fenToChessboard` succeeds, and re-serializing the parsed board with
`chessboardToFen` yields the identical board field. -/
theorem fen_roundTrip (s : String) (h : validBoardField s = true) :
    ∃ b, fenToChessboard s = some b ∧
      boardField (chessboardToFen b false false false) = s := by
  simp only [validBoardField, Bool.and_eq_true, beq_iff_eq, List.all_eq_true] at h
  obtain ⟨hlen, hall⟩ := h
  obtain ⟨r0, r1, r2, r3, r4, r5, r6, r7, hsplit⟩ := list_length_eight _ hlen
  have hnospace : ∀ c ∈ s.data, c ≠ ' ' := by
    intro c hc
    rcases splitOnChar_chars '/' s.data c hc with rfl | ⟨p, hp, hcp⟩
    · decide
    · rcases validRankAux_chars p false 0 (hall p hp) c hcp with hx | hx
      · exact isPieceChar_ne_blank c hx
      · exact isDigit_ne_blank c hx
  rw [hsplit] at hall
  have hstep1 : (splitOnChar ' ' s.data).headD [] = s.data := by
    rw [splitOnChar_all_ne ' ' s.data hnospace]
    rfl
  have hparse : fenToChessboard s =
      fenRanksLoop [r0, r1, r2, r3, r4, r5, r6, r7] 7 (Board.init "") := by
    simp only [fenToChessboard]
    rw [hstep1, hsplit]
    rfl
  obtain ⟨b', heq, _, hiii⟩ := fenRanksLoop_spec [r0, r1, r2, r3, r4, r5, r6, r7] 7
    (Board.init "") hall (fun u _ => rfl)
  refine ⟨b', by rw [hparse]; exact heq, ?_⟩
  have hrank : ∀ i : Nat, i < 8 →
      encodeRankGo b' (7 - (i : Int)) false intRange8 0 =
        [r0, r1, r2, r3, r4, r5, r6, r7].getD i [] := by
    intro i hi
    have hlt : i < [r0, r1, r2, r3, r4, r5, r6, r7].length := by
      simp only [List.length_cons, List.length_nil]
      omega
    have hv_i : validRank ([r0, r1, r2, r3, r4, r5, r6, r7].getD i []) = true := by
      rw [List.getD_eq_getElem _ _ hlt]
      exact hall _ (List.getElem_mem hlt)
    have hlen_i := validRankAux_length _ false 0 hv_i
    rw [encodeRankGo_eq_cells]
    have hmap : intRange8.map (fun f => b' ⟨f, 7 - (i : Int)⟩) =
        intRange8.map (fun f =>
          (decodeCells ([r0, r1, r2, r3, r4, r5, r6, r7].getD i [])).getD f.toNat "") := by
      apply List.map_congr_left
      intro f hf
      rw [mem_intRange8_iff] at hf
      rw [show (⟨f, 7 - (i : Int)⟩ : Square) = ⟨((f.toNat : Nat) : Int), 7 - (i : Int)⟩ by
        congr 1
        omega]
      exact hiii i (by simp only [List.length_cons, List.length_nil]; omega) f.toNat
    rw [hmap, map_getD_eight _ (by omega)]
    exact (encode_decode _ 0).1 hv_i
  have h0 := hrank 0 (by omega)
  have h1 := hrank 1 (by omega)
  have h2 := hrank 2 (by omega)
  have h3 := hrank 3 (by omega)
  have h4 := hrank 4 (by omega)
  have h5 := hrank 5 (by omega)
  have h6 := hrank 6 (by omega)
  have h7 := hrank 7 (by omega)
  rw [show (7 : Int) - ((0 : Nat) : Int) = 7 by norm_num] at h0
  rw [show (7 : Int) - ((1 : Nat) : Int) = 6 by norm_num] at h1
  rw [show (7 : Int) - ((2 : Nat) : Int) = 5 by norm_num] at h2
  rw [show (7 : Int) - ((3 : Nat) : Int) = 4 by norm_num] at h3
  rw [show (7 : Int) - ((4 : Nat) : Int) = 3 by norm_num] at h4
  rw [show (7 : Int) - ((5 : Nat) : Int) = 2 by norm_num] at h5
  rw [show (7 : Int) - ((6 : Nat) : Int) = 1 by norm_num] at h6
  rw [show (7 : Int) - ((7 : Nat) : Int) = 0 by norm_num] at h7
  simp only [List.getD_cons_zero, List.getD_cons_succ] at h0 h1 h2 h3 h4 h5 h6 h7
  have hser : intRange8Rev.map (fun rank => encodeRankGo b' rank false intRange8 0) =
      [r0, r1, r2, r3, r4, r5, r6, r7] := by
    simp only [intRange8Rev, List.map_cons, List.map_nil]
    rw [h0, h1, h2, h3, h4, h5, h6, h7]
  have hjoin : joinSep '/' [r0, r1, r2, r3, r4, r5, r6, r7] = s.data := by
    rw [← hsplit]
    exact joinSep_splitOnChar '/' s.data
  simp only [chessboardToFen, Bool.false_eq_true, if_false]
  rw [hser, hjoin]
  have hdata : ((String.mk s.data ++ " " ++ "w" ++ " - - 0 1") : String).data =
      s.data ++ ' ' :: ("w - - 0 1" : String).data := by
    simp only [String.data_append, List.append_assoc]
    rfl
  rw [boardField, hdata, splitOnChar_append_sep ' ' s.data _ hnospace]
  rfl

set_option maxRecDepth 4000 in
/-- C7 witness: a concrete valid board field round-trips. -/
theorem fen_roundTrip_witness :
    validBoardField "rnbqkbnr/pp5p/8/8/8/3Pp3/PPPP1PPP/RNBQKBNR" = true ∧
      ∃ b, fenToChessboard "rnbqkbnr/pp5p/8/8/8/3Pp3/PPPP1PPP/RNBQKBNR" = some b ∧
        boardField (chessboardToFen b false false false) =
          "rnbqkbnr/pp5p/8/8/8/3Pp3/PPPP1PPP/RNBQKBNR" :=
  ⟨by decide, fen_roundTrip _ (by decide)⟩

theorem Board.set_twice_fun (b : Board String) (s : Square) (v w : String) :
    (b.set s v).set s w = b.set s w :=
  funext (Board.set_twice b s v w)

/-- C8, amended: a well-formed non-castling override entry is expanded over
the four file/rank reflections.  When the notation has a capture symbol or is
a pawn move, exactly the four base reflections of the parsed board are
stored.  Otherwise each reflection also stores a derived capture variant
(placeholder enemy piece on the end square), and the base entries after the
first serialize the board with the end square reset to empty — the loop's
mutation of the shared board carries over.  Castling entries are stored
exactly once without expansion. -/
theorem processManualEntry_expansion (move fen : String) (cb : Board String)
    (endSq : Square) (h0 : move ≠ "") (hO : move.data.headD ' ' ≠ 'O')
    (hf : fenToChessboard fen = some cb)
    (he : strToSquare (parseMove move).2.2.2.1 = some endSq) :
    (((parseMove move).2.2.1 = "" ∧ (parseMove move).1 ≠ "") →
      processManualEntry move fen = some
        [manualEntryBase move cb false false,
          manualEntryCapture move cb endSq false false,
          manualEntryBase move (cb.set endSq "") false true,
          manualEntryCapture move (cb.set endSq "") endSq false true,
          manualEntryBase move (cb.set endSq "") true false,
          manualEntryCapture move (cb.set endSq "") endSq true false,
          manualEntryBase move (cb.set endSq "") true true,
          manualEntryCapture move (cb.set endSq "") endSq true true]) ∧
    ((¬((parseMove move).2.2.1 = "" ∧ (parseMove move).1 ≠ "")) →
      processManualEntry move fen = some
        [manualEntryBase move cb false false,
          manualEntryBase move cb false true,
          manualEntryBase move cb true false,
          manualEntryBase move cb true true]) ∧
    (∀ m f : String, m ≠ "" → m.data.headD ' ' = 'O' →
      processManualEntry m f = some [(m, f)]) := by
  refine ⟨?_, ?_, ?_⟩
  · intro hcap
    simp only [processManualEntry, if_neg h0, if_neg hO, hf, he]
    simp only [flipCombos, processManualEntryLoop, if_pos hcap,
      Board.set_twice_fun]
  · intro hcap
    simp only [processManualEntry, if_neg h0, if_neg hO, hf, he]
    simp only [flipCombos, processManualEntryLoop, if_neg hcap]
  · intro m f hm hOm
    simp only [processManualEntry, if_neg hm, hOm, if_true]

/-- C8 witness: the queen move `Qe4` expands into four reflections plus four
derived capture entries, the later base reflections using the board whose end
square was reset. -/
theorem processManualEntry_expansion_witness :
    (("Qe4" : String) ≠ "" ∧ ("Qe4" : String).data.headD ' ' ≠ 'O' ∧
      fenToChessboard "8/8/8/8/8/8/8/8" = some q8Board ∧
      strToSquare (parseMove "Qe4").2.2.2.1 = some ⟨4, 3⟩) ∧
      ((((parseMove "Qe4").2.2.1 = "" ∧ (parseMove "Qe4").1 ≠ "") →
        processManualEntry "Qe4" "8/8/8/8/8/8/8/8" = some
          [manualEntryBase "Qe4" q8Board false false,
            manualEntryCapture "Qe4" q8Board ⟨4, 3⟩ false false,
            manualEntryBase "Qe4" (q8Board.set ⟨4, 3⟩ "") false true,
            manualEntryCapture "Qe4" (q8Board.set ⟨4, 3⟩ "") ⟨4, 3⟩ false true,
            manualEntryBase "Qe4" (q8Board.set ⟨4, 3⟩ "") true false,
            manualEntryCapture "Qe4" (q8Board.set ⟨4, 3⟩ "") ⟨4, 3⟩ true false,
            manualEntryBase "Qe4" (q8Board.set ⟨4, 3⟩ "") true true,
            manualEntryCapture "Qe4" (q8Board.set ⟨4, 3⟩ "") ⟨4, 3⟩ true true]) ∧
      ((¬((parseMove "Qe4").2.2.1 = "" ∧ (parseMove "Qe4").1 ≠ "")) →
        processManualEntry "Qe4" "8/8/8/8/8/8/8/8" = some
          [manualEntryBase "Qe4" q8Board false false,
            manualEntryBase "Qe4" q8Board false true,
            manualEntryBase "Qe4" q8Board true false,
            manualEntryBase "Qe4" q8Board true true]) ∧
      (∀ m f : String, m ≠ "" → m.data.headD ' ' = 'O' →
        processManualEntry m f = some [(m, f)])) :=
  ⟨⟨by decide, by decide, rfl, by decide⟩,
    processManualEntry_expansion "Qe4" "8/8/8/8/8/8/8/8" q8Board ⟨4, 3⟩
      (by decide) (by decide) rfl (by decide)⟩

set_option maxRecDepth 8000 in
/-- C8, counterexample to the claim as stated: the pawn entry `e4` has no
capture symbol, yet no derived capturing variant (key `xe4`) is stored — the
expansion yields exactly the four base reflections. -/
theorem processManualEntry_pawn_counterexample :
    (processManualEntry "e4" "8/8/8/8/8/8/8/8").isSome = true ∧
      ((processManualEntry "e4" "8/8/8/8/8/8/8/8").getD []).length = 4 ∧
      "xe4" ∉ ((processManualEntry "e4" "8/8/8/8/8/8/8/8").getD []).map Prod.fst := by
  refine ⟨by decide, by decide, by decide⟩

/-- C9, amended: lines starting with the comment marker and lines that do not
split into exactly two whitespace-separated tokens are skipped, but a
two-token line whose move part has no parsable end-square name crashes
`readManualMoves` (modelled as `none`): the run does not terminate normally
for every file content. -/
theorem readManualMoves_skip_and_fail (line : String) (lines : List String)
    (h : line.data.headD ' ' = '#' ∨
      (splitFirstSpaces (rstrip line).data).length ≠ 2) :
    readManualMovesLines (line :: lines) = readManualMovesLines lines ∧
      readManualMovesLines ["Q 8/8/8/8/8/8/8/8"] = none := by
  constructor
  · have hstep : ∀ acc, readManualMovesStep acc line = some acc := by
      intro acc
      unfold readManualMovesStep
      rcases h with h | h
      · rw [if_pos h]
      · by_cases hcm : line.data.headD ' ' = '#'
        · rw [if_pos hcm]
        · rw [if_neg hcm]
          rcases hsp : splitFirstSpaces (rstrip line).data with _ | ⟨a, _ | ⟨b, _ | ⟨c, t⟩⟩⟩
          · rfl
          · rfl
          · rw [hsp] at h
            simp at h
          · rfl
    simp only [readManualMovesLines, List.foldlM_cons, hstep]
    rfl
  · decide

/-- C9 witness: a comment line is skipped. -/
theorem readManualMoves_skip_and_fail_witness :
    (("# pawn moves" : String).data.headD ' ' = '#' ∨
      (splitFirstSpaces (rstrip "# pawn moves").data).length ≠ 2) ∧
      (readManualMovesLines ["# pawn moves"] = readManualMovesLines [] ∧
        readManualMovesLines ["Q 8/8/8/8/8/8/8/8"] = none) :=
  ⟨by decide, readManualMoves_skip_and_fail "# pawn moves" [] (by decide)⟩

/-- C9, counterexample to the claim as stated: a file consisting of the single
line `Q 8/8/8/8/8/8/8/8` — two whitespace-separated tokens, but a move part
without an end-square name — makes `readManualMoves` fail (the source crashes
in `strToSquare` on the empty string, modelled as `none`), so the run does not
terminate normally for every file content. -/
theorem readManualMoves_crash_counterexample :
    readManualMovesLines ["Q 8/8/8/8/8/8/8/8"] = none ∧
      (readManualMovesLines ["Q 8/8/8/8/8/8/8/8"]).isSome = false := by
  exact ⟨by decide, by decide⟩
